import Mathlib

/-!
Verification of `defaultdata.py`, a tool that checks an "investigation"
data-folder naming convention (`check`) and packages investigation schemas
into a data-package descriptor (`package`).

The Python source is shallowly embedded below:
  * filenames are `List Char`; file byte contents are `List Nat`;
  * the four naming regexes `^([A-Za-z0-9_]+)-source\..+$` etc. are embedded
    by the maximal word-run decomposition (the character class excludes `-`
    and `.`, so backtracking into the group can never help: the group must be
    exactly the maximal run of word characters at the start of the name);
    Python `re` semantics are kept, in particular `.` does not match a
    newline and `$` also matches just before a trailing newline;
  * the YAML parser (external library `yaml`) is an oracle: each file carries
    the outcome `Except String Yaml` that `yaml.safe_load` returns for it;
  * `sys.exit` becomes `Except.error`, printed warnings become returned
    warning lists;
  * the text decoding performed by `open(path, encoding='utf-8').readline()`
    is embedded faithfully below (chunked strict UTF-8 decoding plus
    universal-newline translation, 8192-byte chunks);
  * `hashlib.md5` is an abstract streaming hash (`HashM`): the development is
    universally quantified over it.
-/

namespace DefaultData

/-! ## File classifier (regex patterns of `check_project_structure`) -/

/-- The character class `[A-Za-z0-9_]` of the investigation-name group. -/
def wordChar (c : Char) : Bool := c.isAlpha || c.isDigit || c == '_'

/-- Python `.+$` under `re.match` (no DOTALL, no MULTILINE): one or more
non-newline characters, after which `$` matches either at the very end or
just before one final newline. -/
def dotPlusDollar (t : List Char) : Bool :=
  decide (t ≠ []) &&
    (t.all (fun c => c != '\n') ||
      (decide (t.getLast? = some '\n') && decide (t.dropLast ≠ []) &&
        t.dropLast.all (fun c => c != '\n')))

/-- A literal tail followed by `$`: the remaining input is the literal,
optionally with one final newline (Python `$`). -/
def litDollar (lit : List Char) (t : List Char) : Bool :=
  t == lit || t == lit ++ ['\n']

/-- The role a data-folder file can play for an investigation. -/
inductive Role where
  | source | raw | tidy | sidecar
deriving DecidableEq, Repr

/-- Embedding of the classification loop of `check_project_structure`:
the four patterns are tried in order source, raw, tidy, sidecar; the
investigation name is the regex group `[A-Za-z0-9_]+`, which (because `-`
and `.` are outside the class) must be the maximal word run at the start
of the filename. -/
def classify (f : List Char) : Option (Role × List Char) :=
  let run := f.takeWhile wordChar
  let rest := f.dropWhile wordChar
  if run.isEmpty then none
  else if "-source.".toList.isPrefixOf rest && dotPlusDollar (rest.drop 8) then
    some (.source, run)
  else if "-raw.".toList.isPrefixOf rest && dotPlusDollar (rest.drop 5) then
    some (.raw, run)
  else if litDollar ".tsv".toList rest then some (.tidy, run)
  else if litDollar ".yml".toList rest then some (.sidecar, run)
  else none

/-- The two filenames the classification loop always skips. -/
def ignoredNames : List (List Char) := [".gitignore".toList, ".DS_Store".toList]

/-! ## Filesystem snapshot -/

/-- YAML values, as returned by the external parser.  Mapping keys are the
field-name strings of the sidecar format; mappings preserve declaration
order (Python dicts are insertion ordered). -/
inductive Yaml where
  | ynull
  | ybool (b : Bool)
  | yint (n : Int)
  | ystr (s : String)
  | ylist (xs : List Yaml)
  | ymap (entries : List (String × Yaml))
deriving Repr

/-- Content of one regular file in `data/`: its raw bytes, and the oracle
outcome of `yaml.safe_load` on it (`.error` carries the exception text). -/
structure FileData where
  bytes : List Nat
  yaml : Except String Yaml

/-- One directory entry of `data/`, as returned by `os.listdir`. -/
inductive Entry where
  | file (name : List Char) (fd : FileData)
  | dir (name : List Char)

def Entry.name : Entry → List Char
  | .file n _ => n
  | .dir n => n

/-- First regular file of the listing with the given name (`open` on a
name with no such file fails; directories are not regular files). -/
def findFile (L : List Entry) (name : List Char) : Option FileData :=
  L.findSome? fun e =>
    match e with
    | .file n fd => if n == name then some fd else none
    | .dir _ => none

/-- A project snapshot for the `check` command: whether `README.md` exists,
and the listing of `data/` (`none` when the folder is missing). -/
structure Project where
  hasReadme : Bool
  dataDir : Option (List Entry)

/-! ## Grouping files by investigation -/

/-- The four role lists of one investigation (`files_dict` in the source). -/
structure Bundle where
  source : List (List Char) := []
  raw : List (List Char) := []
  tidy : List (List Char) := []
  sidecar : List (List Char) := []

def Bundle.add (b : Bundle) (r : Role) (f : List Char) : Bundle :=
  match r with
  | .source => { b with source := b.source ++ [f] }
  | .raw => { b with raw := b.raw ++ [f] }
  | .tidy => { b with tidy := b.tidy ++ [f] }
  | .sidecar => { b with sidecar := b.sidecar ++ [f] }

/-- `investigations.setdefault(inv, …); investigations[inv][ftype].append(file)`
on the insertion-ordered dict, modelled as an association list. -/
def addFile (invs : List (List Char × Bundle)) (inv : List Char) (r : Role)
    (f : List Char) : List (List Char × Bundle) :=
  if invs.any (fun p => p.1 == inv) then
    invs.map fun p => if p.1 == inv then (p.1, p.2.add r f) else p
  else invs ++ [(inv, ({} : Bundle).add r f)]

def unmatchedErr (f : List Char) : String :=
  "File '" ++ f.asString ++ "' does not match any known naming pattern."

/-- One step of the classification loop: ignored names are skipped,
directory entries are skipped (they are not regular files), an unmatched
file appends a naming-pattern error, and a matched file is grouped. -/
def groupStep (st : List (List Char × Bundle) × List String) (e : Entry) :
    List (List Char × Bundle) × List String :=
  match e with
  | .dir _ => st
  | .file name _ =>
    if name ∈ ignoredNames then st
    else
      match classify name with
      | some (r, inv) => (addFile st.1 inv r name, st.2)
      | none => (st.1, st.2 ++ [unmatchedErr name])

/-- The whole classification loop over the `data/` listing. -/
def groupFiles (L : List Entry) : List (List Char × Bundle) × List String :=
  L.foldl groupStep ([], [])

/-! ## Structural rules (rule set 6) -/

/-- `re.fullmatch(r"[A-Za-z0-9_]+", inv)` as a Boolean (fullmatch is exact:
no trailing-newline allowance). -/
def fullmatchWord (s : List Char) : Bool := !s.isEmpty && s.all wordChar

def nameErr (inv : List Char) : String :=
  "Investigation '" ++ inv.asString ++
    "' contains invalid characters. Only alphanumeric and '_' are allowed."

def rawCountErr (inv : List Char) (n : Nat) : String :=
  "Investigation '" ++ inv.asString ++ "' must have exactly one raw file; found "
    ++ toString n ++ "."

def tidyCountErr (inv : List Char) (n : Nat) : String :=
  "Investigation '" ++ inv.asString ++
    "' must have exactly one tidy data file; found " ++ toString n ++ "."

def sidecarCountErr (inv : List Char) (n : Nat) : String :=
  "Investigation '" ++ inv.asString ++
    "' must have exactly one sidecar file; found " ++ toString n ++ "."

def sourceCountErr (inv : List Char) (n : Nat) : String :=
  "Investigation '" ++ inv.asString ++
    "' must have at most one source file; found " ++ toString n ++ "."

/-- The per-investigation structural checks (name well-formedness and the
four cardinality rules), in source order. -/
def rule6 (inv : List Char) (b : Bundle) : List String :=
  (if fullmatchWord inv then [] else [nameErr inv]) ++
  (if b.raw.length = 1 then [] else [rawCountErr inv b.raw.length]) ++
  (if b.tidy.length = 1 then [] else [tidyCountErr inv b.tidy.length]) ++
  (if b.sidecar.length = 1 then [] else [sidecarCountErr inv b.sidecar.length]) ++
  (if b.source.length > 1 then [sourceCountErr inv b.source.length] else [])

/-! ## Content checks (rules 7 and 8): tidy-file read and sidecar parse

The tidy-file check below depends on the chunked UTF-8 reader defined in
the next section; forward declarations are avoided by defining the reader
first. -/

/-- Second, third and fourth bytes of a multi-byte UTF-8 sequence are in
`80..BF` unless the lead byte restricts them further. -/
def contB (b : Nat) : Bool := 0x80 ≤ b && b ≤ 0xBF

/-- Prepend a freshly decoded code point to a successful decode. -/
def consHead (c : Nat) : Except Unit (List Nat × List Nat) →
    Except Unit (List Nat × List Nat)
  | .ok (cs, carry) => .ok (c :: cs, carry)
  | .error e => .error e

/-- One pass of CPython's strict incremental UTF-8 decoder over a byte
chunk with `final=False`: produces the decoded code points and the
pending (incomplete but so far valid) trailing bytes, or fails on the
first invalid sequence.  The second-byte ranges are the strict ones
(E0: A0..BF, ED: 80..9F, F0: 90..BF, F4: 80..8F), which reject overlong
forms, surrogates and code points beyond U+10FFFF. -/
def decodeChunk : List Nat → Except Unit (List Nat × List Nat)
  | [] => .ok ([], [])
  | b :: rest =>
    if b < 0x80 then consHead b (decodeChunk rest)
    else if 0xC2 ≤ b && b ≤ 0xDF then
      match rest with
      | [] => .ok ([], [b])
      | b2 :: rest2 =>
        if contB b2 then
          consHead ((b - 0xC0) * 64 + (b2 - 0x80)) (decodeChunk rest2)
        else .error ()
    else if 0xE0 ≤ b && b ≤ 0xEF then
      match rest with
      | [] => .ok ([], [b])
      | b2 :: rest2 =>
        if (if b = 0xE0 then 0xA0 else 0x80) ≤ b2 &&
            b2 ≤ (if b = 0xED then 0x9F else 0xBF) then
          match rest2 with
          | [] => .ok ([], [b, b2])
          | b3 :: rest3 =>
            if contB b3 then
              consHead ((b - 0xE0) * 4096 + (b2 - 0x80) * 64 + (b3 - 0x80))
                (decodeChunk rest3)
            else .error ()
        else .error ()
    else if 0xF0 ≤ b && b ≤ 0xF4 then
      match rest with
      | [] => .ok ([], [b])
      | b2 :: rest2 =>
        if (if b = 0xF0 then 0x90 else 0x80) ≤ b2 &&
            b2 ≤ (if b = 0xF4 then 0x8F else 0xBF) then
          match rest2 with
          | [] => .ok ([], [b, b2])
          | b3 :: rest3 =>
            if contB b3 then
              match rest3 with
              | [] => .ok ([], [b, b2, b3])
              | b4 :: rest4 =>
                if contB b4 then
                  consHead ((b - 0xF0) * 262144 + (b2 - 0x80) * 4096 +
                      (b3 - 0x80) * 64 + (b4 - 0x80)) (decodeChunk rest4)
                else .error ()
            else .error ()
        else .error ()
    else .error ()

/-- `'\r\n' → '\n'` then `'\r' → '\n'` over code points (the translation
done by `io.IncrementalNewlineDecoder` with `translate=True`). -/
def translate : List Nat → List Nat
  | [] => []
  | [c] => [if c = 13 then 10 else c]
  | c :: c2 :: t =>
    if c = 13 then
      if c2 = 10 then 10 :: translate t
      else 10 :: translate (c2 :: t)
    else c :: translate (c2 :: t)

/-- One incremental step of the universal-newline decoder: a pending `\r`
from the previous chunk is prepended, a trailing `\r` (when not final) is
held back, and the rest is translated. -/
def nlDecode (pend : Bool) (cs : List Nat) : List Nat × Bool :=
  let cs1 := if pend then 13 :: cs else cs
  if cs1.getLast? = some 13 then (translate cs1.dropLast, true)
  else (translate cs1, false)

/-- The part of a decoded buffer up to and including its first `'\n'`,
when one is present. -/
def upToNL : List Nat → Option (List Nat)
  | [] => none
  | c :: t => if c = 10 then some [10] else (upToNL t).map (fun l => c :: l)

/-- The loop of `TextIOWrapper.readline`: read 8192-byte chunks, decode
each strictly as UTF-8 (with the carry of an incomplete trailing
sequence), translate newlines, and stop at the first line end.  At end of
file, a pending incomplete UTF-8 sequence is a decode error and a pending
`\r` is flushed as a final `'\n'`.  `fuel` only drives termination and is
always sufficient at the call site. -/
def readLoop : Nat → List Nat → Bool → List Nat → List Nat → Except Unit (List Nat)
  | _, carry, pend, acc, [] =>
    if carry = [] then .ok (acc ++ if pend then [10] else []) else .error ()
  | 0, _, _, _, _ :: _ => .error ()
  | fuel + 1, carry, pend, acc, b :: rem =>
    match decodeChunk (carry ++ (b :: rem).take 8192) with
    | .error _ => .error ()
    | .ok (cs, carry2) =>
      let op := nlDecode pend cs
      match upToNL op.1 with
      | some lineDone => .ok (acc ++ lineDone)
      | none => readLoop fuel carry2 op.2 (acc ++ op.1) ((b :: rem).drop 8192)

/-- `open(path, encoding='utf-8').readline()` as a function of the file's
bytes: either the first line's code points (newline included, translated)
or a `UnicodeDecodeError`. -/
def readFirstLine (bytes : List Nat) : Except Unit (List Nat) :=
  readLoop (bytes.length + 1) [] false [] bytes

def tabErr (f : List Char) : String :=
  "Tidy data file '" ++ f.asString ++ "' does not appear to be tab-separated."

def utf8Err (f : List Char) : String :=
  "Tidy data file '" ++ f.asString ++ "' is not encoded in UTF-8."

def readGenericErr (f : List Char) : String :=
  "Error reading tidy data file '" ++ f.asString ++
    "': file could not be opened"

/-- The tidy-file content check on an opened file's bytes: emit the
"not tab-separated" error when the first line has no tab (code point 9),
and the UTF-8 error when reading the first line hits a decode error. -/
def tidyFileErrs (f : List Char) (bytes : List Nat) : List String :=
  match readFirstLine bytes with
  | .error _ => [utf8Err f]
  | .ok line => if (9 : Nat) ∈ line then [] else [tabErr f]

/-- Rule 7 for one investigation's (first) tidy file: a failed `open`
takes the generic read-error branch. -/
def tidyErrs (L : List Entry) (f : List Char) : List String :=
  match findFile L f with
  | none => [readGenericErr f]
  | some fd => tidyFileErrs f fd.bytes

def yamlErr (f : List Char) (cause : String) : String :=
  "Sidecar file '" ++ f.asString ++ "' is not valid YAML: " ++ cause

def pyyamlErr : String :=
  "PyYAML is not installed. Cannot check sidecar YAML files."

/-- Rule 8 for one investigation's (first) sidecar file: with PyYAML
available the parse oracle decides validity; without it a fixed
capability-missing error is emitted for this investigation. -/
def sidecarErrs (yamlAvail : Bool) (L : List Entry) (f : List Char) : List String :=
  if yamlAvail then
    match findFile L f with
    | none => [yamlErr f "file could not be opened"]
    | some fd =>
      match fd.yaml with
      | .ok _ => []
      | .error e => [yamlErr f e]
  else [pyyamlErr]

/-- The content-check loop body for one investigation: tidy file (if any)
then sidecar file (if any), each taking the first file of its role list. -/
def contentStep (yamlAvail : Bool) (L : List Entry) (b : Bundle) : List String :=
  (match b.tidy with
   | [] => []
   | f :: _ => tidyErrs L f) ++
  (match b.sidecar with
   | [] => []
   | f :: _ => sidecarErrs yamlAvail L f)

/-! ## `check_project_structure` -/

def readmeErr : String := "Project root must contain a README.md file."

def dataFolderErr : String := "Project must contain a data/ folder."

def readmeErrs (p : Project) : List String :=
  if p.hasReadme then [] else [readmeErr]

def subfolderErr (n : List Char) : String :=
  "data/ folder must only contain set-related files, but found subfolder: "
    ++ n.asString

/-- The subfolder scan over the `data/` listing. -/
def subfolderErrs (L : List Entry) : List String :=
  L.filterMap fun e =>
    match e with
    | .dir n => some (subfolderErr n)
    | .file _ _ => none

def notFoundErr (t : List Char) : String :=
  "Investigation '" ++ t.asString ++ "' not found in data folder."

/-- The target-investigation filter (`if target_inv:` is Python truthiness,
so `none` and the empty string both leave the set unfiltered). -/
def applyTarget (invs : List (List Char × Bundle)) (target : Option (List Char)) :
    List (List Char × Bundle) × List String :=
  match target with
  | none => (invs, [])
  | some t =>
    if t = [] then (invs, [])
    else if invs.any (fun p => p.1 == t) then (invs.filter (fun p => p.1 == t), [])
    else ([], [notFoundErr t])

/-- `check_project_structure(project_path, target_inv)`, as a function of
the project snapshot (plus whether PyYAML is importable).  Error order
follows the source: README, missing `data/` (early return), subfolders,
unmatched files, missing target, rule set 6 per investigation, content
checks per investigation. -/
def check_project_structure (yamlAvail : Bool) (p : Project)
    (target : Option (List Char)) : List String :=
  match p.dataDir with
  | none => readmeErrs p ++ [dataFolderErr]
  | some L =>
    let g := groupFiles L
    let tf := applyTarget g.1 target
    readmeErrs p ++ subfolderErrs L ++ g.2 ++ tf.2 ++
      (tf.1.map fun q => rule6 q.1 q.2).flatten ++
      (tf.1.map fun q => contentStep yamlAvail L q.2).flatten

/-! ## The four filename forms of the spec

These predicates follow the spec's wording ("a filename of the form
`X-source.E` … where X is a non-empty string over `[A-Za-z0-9_]` and E is
non-empty"), to be compared against the embedded classifier. -/

def SourceForm (f : List Char) : Prop :=
  ∃ X E, X ≠ [] ∧ (∀ c ∈ X, wordChar c = true) ∧ E ≠ [] ∧
    f = X ++ "-source.".toList ++ E

def RawForm (f : List Char) : Prop :=
  ∃ X E, X ≠ [] ∧ (∀ c ∈ X, wordChar c = true) ∧ E ≠ [] ∧
    f = X ++ "-raw.".toList ++ E

def TidyForm (f : List Char) : Prop :=
  ∃ X, X ≠ [] ∧ (∀ c ∈ X, wordChar c = true) ∧ f = X ++ ".tsv".toList

def YmlForm (f : List Char) : Prop :=
  ∃ X, X ≠ [] ∧ (∀ c ∈ X, wordChar c = true) ∧ f = X ++ ".yml".toList

/-! ## SchemaLoader (`load_yaml_fields`) -/

/-- `isinstance(v, dict)`. -/
def Yaml.isMap : Yaml → Bool
  | .ymap _ => true
  | _ => false

/-- Python `d[k] = v` on an insertion-ordered dict: replace the value in
place when the key exists, append the pair otherwise. -/
def dictSet (d : List (String × Yaml)) (k : String) (v : Yaml) :
    List (String × Yaml) :=
  if d.any (fun q => q.1 == k) then
    d.map fun q => if q.1 == k then (k, v) else q
  else d ++ [(k, v)]

/-- Python `dst.update(src)`: set every key of `src` in declaration order. -/
def dictUpdate (d src : List (String × Yaml)) : List (String × Yaml) :=
  src.foldl (fun acc q => dictSet acc q.1 q.2) d

/-- `new_field = {"name": field_name}; new_field.update(field_def)`: the
injected `name` key is set first and the sidecar's declared attributes are
then overlaid on it. -/
def mkField (k : String) (m : List (String × Yaml)) : List (String × Yaml) :=
  dictUpdate [("name", .ystr k)] m

def fieldWarn (k : String) : String :=
  "Warning: Field '" ++ k ++ "' is not a mapping; skipping."

/-- The field records of a mapping root, in top-level declaration order:
one per map-valued key. -/
def fieldsOf (entries : List (String × Yaml)) : List (List (String × Yaml)) :=
  entries.filterMap fun q =>
    match q.2 with
    | .ymap m => some (mkField q.1 m)
    | _ => none

/-- The warnings of a mapping root: one per non-map-valued key. -/
def fieldWarnsOf (entries : List (String × Yaml)) : List String :=
  entries.filterMap fun q =>
    match q.2 with
    | .ymap _ => none
    | _ => some (fieldWarn q.1)

/-- `load_yaml_fields(yml_file)` as a function of the sidecar's parse
outcome: `sys.exit` becomes `.error` (a failed parse, or a root that is
not a mapping); a mapping root yields the field records and the printed
warnings. -/
def load_yaml_fields (fname : List Char) (src : Except String Yaml) :
    Except String (List (List (String × Yaml)) × List String) :=
  match src with
  | .error e =>
    .error ("Error loading YAML file data/" ++ fname.asString ++ ": " ++ e)
  | .ok y =>
    match y with
    | .ymap entries => .ok (fieldsOf entries, fieldWarnsOf entries)
    | _ =>
      .error ("Error: Expected a YAML mapping at the root of data/" ++
        fname.asString)


/-! ## FileDigest and packaging (`compute_file_info`, `package_investigations`) -/

/-- The abstract streaming hash (`hashlib.md5()`): an initial state, a
per-chunk update, and a hex rendering of the final state.  The packaging
development is universally quantified over it. -/
structure HashM (σ : Type) where
  init : σ
  update : σ → List Nat → σ
  hexdigest : σ → String

/-- `iter(lambda: f.read(8192), b"")`: the 8192-byte chunks of a file.
The fuel argument only drives termination and is sufficient at the call
site. -/
def chunksGo : Nat → List Nat → List (List Nat)
  | _, [] => []
  | 0, l => [l]
  | fuel + 1, l => l.take 8192 :: chunksGo fuel (l.drop 8192)

def chunks8192 (l : List Nat) : List (List Nat) := chunksGo l.length l

/-- `compute_file_info(tsv_path)`: the byte size (file-system metadata)
and the streaming hash of the 8192-byte chunks of the content. -/
def compute_file_info {σ : Type} (H : HashM σ) (bytes : List Nat) :
    Nat × String :=
  (bytes.length, H.hexdigest ((chunks8192 bytes).foldl H.update H.init))

/-- The last-dot split that `os.path.splitext` starts from, if the name
has a dot at all. -/
def splitextGo : List Char → Option (List Char × List Char)
  | [] => none
  | c :: t =>
    match splitextGo t with
    | some (s, e) => some (c :: s, e)
    | none => if c = '.' then some ([], '.' :: t) else none

/-- `os.path.splitext(name)[0]`: the stem, where the last dot only starts
an extension if some character before it is not a dot (leading dots of
the basename never begin an extension). -/
def splitextStem (name : List Char) : List Char :=
  match splitextGo name with
  | some (s, _) => if s.any (fun c => c != '.') then s else name
  | none => name

/-- What `load_yaml_fields` gets to parse for a discovered entry: a
directory named `*.yml` cannot be opened as a file, so loading it fails
like any other read error. -/
def sideSrc : Entry → Except String Yaml
  | .file _ fd => fd.yaml
  | .dir n => .error ("[Errno 21] Is a directory: 'data/" ++ n.asString ++ "'")

/-- Python `d[k] = v` on the insertion-ordered discovery dict. -/
def dictSetG {α : Type} (d : List (List Char × α)) (k : List Char) (v : α) :
    List (List Char × α) :=
  if d.any (fun q => q.1 == k) then
    d.map fun q => if q.1 == k then (k, v) else q
  else d ++ [(k, v)]

/-- One step of package-mode discovery: an entry whose name ends in
`.yml` becomes an investigation keyed by the name's stem (no regular-file
check, no naming-pattern check, no companion-file check). -/
def discoverStep (acc : List (List Char × Entry)) (e : Entry) :
    List (List Char × Entry) :=
  if ".yml".toList.isSuffixOf e.name then
    dictSetG acc (splitextStem e.name) e
  else acc

/-- The package-mode discovery loop over the `data/` listing. -/
def discoverSidecars (L : List Entry) : List (List Char × Entry) :=
  L.foldl discoverStep []

/-- The fields of `datetime.datetime.utcnow()` that the `created`
timestamp uses. -/
structure DateTime where
  year : Nat
  month : Nat
  day : Nat
  hour : Nat
  minute : Nat
  second : Nat

def pad2 (n : Nat) : String := if n < 10 then "0" ++ toString n else toString n

/-- `strftime("%Y-%m-%dT%H:%M:%SZ")`: month, day, hour, minute and second
zero-padded to two digits (`%Y` prints the year as-is on glibc; it has
four digits for any contemporary clock). -/
def formatTimestamp (dt : DateTime) : String :=
  toString dt.year ++ "-" ++ pad2 dt.month ++ "-" ++ pad2 dt.day ++ "T" ++
    pad2 dt.hour ++ ":" ++ pad2 dt.minute ++ ":" ++ pad2 dt.second ++ "Z"

structure License where
  name : String
  title : String
  path : String

structure Dialect where
  header : Bool
  headerRows : List Nat
  headerJoin : String
  commentChar : String
  delimiter : String
  lineTerminator : String
  quoteChar : String
  doubleQuote : Bool
  skipInitialSpace : Bool

/-- The fixed dialect block of every resource. -/
def tsvDialect : Dialect :=
  { header := true, headerRows := [1], headerJoin := " ", commentChar := "#",
    delimiter := "\t", lineTerminator := "\r\n", quoteChar := "\"",
    doubleQuote := true, skipInitialSpace := false }

/-- The fixed CC0 license block of every resource. -/
def cc0Licenses : List License :=
  [{ name := "CC0", title := "Creative Commons CC0",
     path := "https://creativecommons.org/publicdomain/zero/1.0/" }]

/-- One entry of the `resources` list of `datapackage.json`. -/
structure Resource where
  profile : String
  name : String
  path : String
  format : String
  mediatype : String
  encoding : String
  bytes : Nat
  hash : String
  fields : List (List (String × Yaml))
  dialect : Dialect
  licenses : List License
  created : String

structure Package where
  name : String
  resources : List Resource

def tsvWarning (inv : List Char) : String :=
  "Warning: TSV file 'data/" ++ inv.asString ++
    ".tsv' not found. Using placeholder values."

/-- One loop iteration of `package_investigations`: digest the expected
tidy file `data/<inv>.tsv` when it exists as a regular file (placeholder
values and a printed warning otherwise), load the sidecar's fields (fatal
when that fails), and assemble the resource with the fixed metadata and
the shared `created` timestamp. -/
def buildResource {σ : Type} (H : HashM σ) (L : List Entry) (created : String)
    (inv : List Char) (e : Entry) : Except String (Resource × List String) :=
  let info :=
    match findFile L (inv ++ ".tsv".toList) with
    | some fd => (compute_file_info H fd.bytes, ([] : List String))
    | none => ((0, ""), [tsvWarning inv])
  match load_yaml_fields e.name (sideSrc e) with
  | .error err => .error err
  | .ok fw =>
    .ok ({ profile := "tabular-data-resource", name := inv.asString,
           path := "data/" ++ inv.asString ++ ".tsv", format := "tsv",
           mediatype := "text/tab-separated-values", encoding := "utf-8",
           bytes := info.1.1, hash := info.1.2, fields := fw.1,
           dialect := tsvDialect, licenses := cc0Licenses,
           created := created }, info.2 ++ fw.2)

/-- The resource loop of `package_investigations`, in discovery order;
the first fatal sidecar aborts the run. -/
def buildAll {σ : Type} (H : HashM σ) (L : List Entry) (created : String) :
    List (List Char × Entry) → Except String (List Resource × List String)
  | [] => .ok ([], [])
  | (inv, e) :: t =>
    match buildResource H L created inv e with
    | .error err => .error err
    | .ok rw =>
      match buildAll H L created t with
      | .error err => .error err
      | .ok rest => .ok (rw.1 :: rest.1, rw.2 ++ rest.2)

/-- A project snapshot for the `package` command: the basename of the
current directory (for the package name) and the `data/` listing. -/
structure PkgProject where
  dirName : String
  dataDir : Option (List Entry)

/-- The package-mode target filter (`if target_inv:` is Python truthiness
again, so `none` and the empty string leave the discovered dict whole);
a missing target is fatal here. -/
def filterTarget (invs0 : List (List Char × Entry))
    (target : Option (List Char)) :
    Except String (List (List Char × Entry)) :=
  match target with
  | none => .ok invs0
  | some t =>
    if t = [] then .ok invs0
    else if invs0.any (fun q => q.1 == t) then
      .ok (invs0.filter fun q => q.1 == t)
    else
      .error ("Error: Investigation '" ++ t.asString ++
        "' not found (no corresponding .yml file in data/).")

/-- `os.path.basename(os.path.abspath(project_path)) or "defaultdata-package"`. -/
def packageName (proj : PkgProject) : String :=
  if proj.dirName = "" then "defaultdata-package" else proj.dirName

/-- Discovery, target filtering and the resource loop of one package run
over the `data/` listing. -/
def packageCore {σ : Type} (H : HashM σ) (L : List Entry)
    (target : Option (List Char)) (now : DateTime) :
    Except String (List Resource × List String) :=
  match filterTarget (discoverSidecars L) target with
  | .error err => .error err
  | .ok invs => buildAll H L (formatTimestamp now) invs

/-- `package_investigations(target_inv)` as a function of the snapshot,
the abstract hash and the captured `utcnow()` value; the result is the
assembled package plus the printed warnings, or the fatal message. -/
def package_investigations {σ : Type} (H : HashM σ) (proj : PkgProject)
    (target : Option (List Char)) (now : DateTime) :
    Except String (Package × List String) :=
  match proj.dataDir with
  | none =>
    .error "Error: data/ folder not found in the current project directory."
  | some L =>
    match packageCore H L target now with
    | .error err => .error err
    | .ok rw => .ok ({ name := packageName proj, resources := rw.1 }, rw.2)

def stripCreated (r : Resource) : Resource := { r with created := "" }

/-- A trivial hash instance, used to evaluate the packaging theorems on
concrete inputs. -/
def unitHash : HashM Unit :=
  { init := (), update := fun _ _ => (), hexdigest := fun _ => "" }

/-- A sample sidecar entry with an empty mapping, for evaluating the
packaging theorems. -/
def sampleYml : Entry := .file ("a.yml".toList) ⟨[], .ok (.ymap [])⟩

/-- A sample project whose data folder holds just `sampleYml`. -/
def sampleProj : PkgProject := ⟨"proj", some [sampleYml]⟩

/-- A sample sidecar whose stem check-mode classification rejects. -/
def sampleMyData : Entry := .file ("my-data.yml".toList) ⟨[], .ok (.ymap [])⟩

/-- A sample project whose data folder holds just `sampleMyData`. -/
def sampleProj2 : PkgProject := ⟨"p", some [sampleMyData]⟩

/-- A fixed clock value for evaluating the packaging theorems. -/
def sampleNow : DateTime := ⟨2026, 10, 12, 3, 4, 5⟩

/-- A package run's outcome with every resource's `created` field
blanked, for comparing runs taken at different times. -/
def runShape (x : Except String (Package × List String)) :
    Except String (Package × List String) :=
  match x with
  | .error e => .error e
  | .ok pw =>
    .ok ({ pw.1 with resources := pw.1.resources.map stripCreated }, pw.2)

/-! ## UTF-8 encoding (specification side for the tidy-file reader) -/

/-- The UTF-8 encoding of one Unicode scalar value. -/
def encodeChar (c : Nat) : List Nat :=
  if c < 0x80 then [c]
  else if c < 0x800 then [0xC0 + c / 64, 0x80 + c % 64]
  else if c < 0x10000 then
    [0xE0 + c / 4096, 0x80 + (c / 64) % 64, 0x80 + c % 64]
  else
    [0xF0 + c / 262144, 0x80 + (c / 4096) % 64, 0x80 + (c / 64) % 64,
      0x80 + c % 64]

/-- A Unicode scalar value: not a surrogate, at most `U+10FFFF`. -/
def scalarOK (c : Nat) : Bool := c < 0xD800 || (0xE000 ≤ c && c ≤ 0x10FFFF)

/-- The UTF-8 encoding of a character sequence. -/
def utf8Encode (cs : List Nat) : List Nat := (cs.map encodeChar).flatten

/-- A pending carriage return prepended to the next decoded chunk. -/
def optCR (p : Bool) (l : List Nat) : List Nat := if p then 13 :: l else l

/-- The first line of the file as text reading sees it: universal-newline
translation applied, then everything up to and including the first
`'\n'` (or the whole content when no line end occurs). -/
def fileFirstLine (cs : List Nat) : List Nat :=
  (upToNL (translate cs)).getD (translate cs)

/-- A project whose tidy file has a tab-free first line followed by an
invalid UTF-8 byte. -/
def sampleBadTidy : Project :=
  ⟨true,
    some [Entry.file ("x-raw.r".toList) ⟨[], .ok .ynull⟩,
      Entry.file ("x.tsv".toList) ⟨[97, 32, 98, 10, 255], .ok .ynull⟩,
      Entry.file ("x.yml".toList) ⟨[], .ok .ynull⟩]⟩

/-! ## Lemmas and claim theorems -/

/-- Splitting off a word-character run before a non-word character is
exactly `takeWhile`/`dropWhile` of the word class. -/
theorem span_append (p : Char → Bool) :
    ∀ (X t : List Char), (∀ c ∈ X, p c = true) →
      (∀ c, t.head? = some c → p c = false) →
      (X ++ t).takeWhile p = X ∧ (X ++ t).dropWhile p = t := by
  intro X
  induction X with
  | nil =>
    intro t _ ht
    cases t with
    | nil => simp
    | cons c t' => simp [List.takeWhile_cons, List.dropWhile_cons, ht c rfl]
  | cons x X ih =>
    intro t hX ht
    have hx : p x = true := hX x (by simp)
    have h2 := ih t (fun c hc => hX c (by simp [hc])) ht
    simp [List.takeWhile_cons, List.dropWhile_cons, hx, h2.1, h2.2]

/-- `X-source.E` decompositions are exactly characterized by the word-run
split of the filename: the run is non-empty, `-source.` follows, and the
extension part is non-empty. -/
theorem SourceForm_iff (f : List Char) :
    SourceForm f ↔
      (f.takeWhile wordChar ≠ [] ∧
        "-source.".toList.isPrefixOf (f.dropWhile wordChar) = true ∧
        (f.dropWhile wordChar).drop 8 ≠ []) := by
  constructor
  · rintro ⟨X, E, hX, hw, hE, rfl⟩
    rw [List.append_assoc]
    have hsp := span_append wordChar X ("-source.".toList ++ E) hw
      (by intro c hc; cases hc; decide)
    rw [hsp.1, hsp.2]
    refine ⟨hX, List.isPrefixOf_iff_prefix.mpr (List.prefix_append _ _), ?_⟩
    show E ≠ []
    exact hE
  · rintro ⟨h1, h2, h3⟩
    obtain ⟨E, hE⟩ := List.isPrefixOf_iff_prefix.mp h2
    refine ⟨f.takeWhile wordChar, E, h1,
      fun c hc => List.mem_takeWhile_imp hc, ?_, ?_⟩
    · intro h
      apply h3
      rw [← hE, h]
      rfl
    · rw [List.append_assoc, hE, List.takeWhile_append_dropWhile]

theorem RawForm_iff (f : List Char) :
    RawForm f ↔
      (f.takeWhile wordChar ≠ [] ∧
        "-raw.".toList.isPrefixOf (f.dropWhile wordChar) = true ∧
        (f.dropWhile wordChar).drop 5 ≠ []) := by
  constructor
  · rintro ⟨X, E, hX, hw, hE, rfl⟩
    rw [List.append_assoc]
    have hsp := span_append wordChar X ("-raw.".toList ++ E) hw
      (by intro c hc; cases hc; decide)
    rw [hsp.1, hsp.2]
    refine ⟨hX, List.isPrefixOf_iff_prefix.mpr (List.prefix_append _ _), ?_⟩
    show E ≠ []
    exact hE
  · rintro ⟨h1, h2, h3⟩
    obtain ⟨E, hE⟩ := List.isPrefixOf_iff_prefix.mp h2
    refine ⟨f.takeWhile wordChar, E, h1,
      fun c hc => List.mem_takeWhile_imp hc, ?_, ?_⟩
    · intro h
      apply h3
      rw [← hE, h]
      rfl
    · rw [List.append_assoc, hE, List.takeWhile_append_dropWhile]

theorem TidyForm_iff (f : List Char) :
    TidyForm f ↔
      (f.takeWhile wordChar ≠ [] ∧ f.dropWhile wordChar = ".tsv".toList) := by
  constructor
  · rintro ⟨X, hX, hw, rfl⟩
    have hsp := span_append wordChar X ".tsv".toList hw
      (by intro c hc; cases hc; decide)
    rw [hsp.1, hsp.2]
    exact ⟨hX, rfl⟩
  · rintro ⟨h1, h2⟩
    refine ⟨f.takeWhile wordChar, h1, fun c hc => List.mem_takeWhile_imp hc, ?_⟩
    rw [← h2, List.takeWhile_append_dropWhile]

theorem YmlForm_iff (f : List Char) :
    YmlForm f ↔
      (f.takeWhile wordChar ≠ [] ∧ f.dropWhile wordChar = ".yml".toList) := by
  constructor
  · rintro ⟨X, hX, hw, rfl⟩
    have hsp := span_append wordChar X ".yml".toList hw
      (by intro c hc; cases hc; decide)
    rw [hsp.1, hsp.2]
    exact ⟨hX, rfl⟩
  · rintro ⟨h1, h2⟩
    refine ⟨f.takeWhile wordChar, h1, fun c hc => List.mem_takeWhile_imp hc, ?_⟩
    rw [← h2, List.takeWhile_append_dropWhile]

/-! ## Classifier behaviour on the four forms -/

theorem classify_source (X E : List Char) (hX : X ≠ [])
    (hw : ∀ c ∈ X, wordChar c = true) (hE : E ≠ [])
    (hnlE : ∀ c ∈ E, c ≠ '\n') :
    classify (X ++ "-source.".toList ++ E) = some (.source, X) := by
  rw [List.append_assoc]
  have hsp := span_append wordChar X ("-source.".toList ++ E) hw
    (by intro c hc; cases hc; decide)
  have hd : ("-source.".toList ++ E).drop 8 = E := rfl
  simp only [classify, hsp.1, hsp.2, hd]
  rw [if_neg, if_pos]
  · rw [List.isPrefixOf_iff_prefix.mpr (List.prefix_append _ _), Bool.true_and,
      dotPlusDollar]
    have : E.all (fun c => c != '\n') = true :=
      List.all_eq_true.mpr fun c hc => bne_iff_ne.mpr (hnlE c hc)
    simp [hE, this]
  · simp [List.isEmpty_iff, hX]

theorem classify_raw (X E : List Char) (hX : X ≠ [])
    (hw : ∀ c ∈ X, wordChar c = true) (hE : E ≠ [])
    (hnlE : ∀ c ∈ E, c ≠ '\n') :
    classify (X ++ "-raw.".toList ++ E) = some (.raw, X) := by
  rw [List.append_assoc]
  have hsp := span_append wordChar X ("-raw.".toList ++ E) hw
    (by intro c hc; cases hc; decide)
  have hd : ("-raw.".toList ++ E).drop 5 = E := rfl
  have hsrc : "-source.".toList.isPrefixOf ("-raw.".toList ++ E) = false := rfl
  simp only [classify, hsp.1, hsp.2, hd, hsrc, Bool.false_and, if_false,
    Bool.false_eq_true]
  rw [if_neg, if_pos]
  · rw [List.isPrefixOf_iff_prefix.mpr (List.prefix_append _ _), Bool.true_and,
      dotPlusDollar]
    have : E.all (fun c => c != '\n') = true :=
      List.all_eq_true.mpr fun c hc => bne_iff_ne.mpr (hnlE c hc)
    simp [hE, this]
  · simp [List.isEmpty_iff, hX]

theorem classify_tidy (X : List Char) (hX : X ≠ [])
    (hw : ∀ c ∈ X, wordChar c = true) :
    classify (X ++ ".tsv".toList) = some (.tidy, X) := by
  have hsp := span_append wordChar X ".tsv".toList hw
    (by intro c hc; cases hc; decide)
  simp only [classify, hsp.1, hsp.2]
  rw [if_neg, if_neg (by decide), if_neg (by decide), if_pos (by decide)]
  simp [List.isEmpty_iff, hX]

theorem classify_yml (X : List Char) (hX : X ≠ [])
    (hw : ∀ c ∈ X, wordChar c = true) :
    classify (X ++ ".yml".toList) = some (.sidecar, X) := by
  have hsp := span_append wordChar X ".yml".toList hw
    (by intro c hc; cases hc; decide)
  simp only [classify, hsp.1, hsp.2]
  rw [if_neg, if_neg (by decide), if_neg (by decide), if_neg (by decide),
    if_pos (by decide)]
  simp [List.isEmpty_iff, hX]

/-- A newline-free filename matched by the classifier is of the returned
role's form (the converse direction of the correspondence). -/
theorem classify_some_form (f : List Char) (r : Role) (i : List Char)
    (hnl : ∀ c ∈ f, c ≠ '\n') (h : classify f = some (r, i)) :
    (r = .source ∧ SourceForm f) ∨ (r = .raw ∧ RawForm f) ∨
      (r = .tidy ∧ TidyForm f) ∨ (r = .sidecar ∧ YmlForm f) := by
  have hnlrest : ∀ c ∈ f.dropWhile wordChar, c ≠ '\n' := fun c hc =>
    hnl c ((List.dropWhile_sublist _).subset hc)
  simp only [classify] at h
  split at h
  · exact absurd h (by simp)
  case isFalse hrun =>
    have hrun' : f.takeWhile wordChar ≠ [] := by
      intro hh
      exact hrun (by simp [List.isEmpty_iff, hh])
    split at h
    case isTrue hc =>
      left
      obtain ⟨hpre, hdpd⟩ := Bool.and_eq_true_iff.mp hc
      refine ⟨(congrArg Prod.fst (Option.some.inj h)).symm, ?_⟩
      rw [SourceForm_iff]
      refine ⟨hrun', hpre, ?_⟩
      have := Bool.and_eq_true_iff.mp (by rw [dotPlusDollar] at hdpd; exact hdpd)
      simpa using this.1
    case isFalse hc1 =>
      split at h
      case isTrue hc =>
        right; left
        obtain ⟨hpre, hdpd⟩ := Bool.and_eq_true_iff.mp hc
        refine ⟨(congrArg Prod.fst (Option.some.inj h)).symm, ?_⟩
        rw [RawForm_iff]
        refine ⟨hrun', hpre, ?_⟩
        have := Bool.and_eq_true_iff.mp (by rw [dotPlusDollar] at hdpd; exact hdpd)
        simpa using this.1
      case isFalse hc2 =>
        split at h
        case isTrue hc =>
          right; right; left
          refine ⟨(congrArg Prod.fst (Option.some.inj h)).symm, ?_⟩
          rw [TidyForm_iff]
          refine ⟨hrun', ?_⟩
          rcases Bool.or_eq_true_iff.mp (by rw [litDollar] at hc; exact hc) with
            hh | hh
          · exact eq_of_beq hh
          · exfalso
            have := eq_of_beq hh
            exact hnlrest '\n' (by rw [this]; decide) rfl
        case isFalse hc3 =>
          split at h
          case isTrue hc =>
            right; right; right
            refine ⟨(congrArg Prod.fst (Option.some.inj h)).symm, ?_⟩
            rw [YmlForm_iff]
            refine ⟨hrun', ?_⟩
            rcases Bool.or_eq_true_iff.mp (by rw [litDollar] at hc; exact hc) with
              hh | hh
            · exact eq_of_beq hh
            · exfalso
              have := eq_of_beq hh
              exact hnlrest '\n' (by rw [this]; decide) rfl
          case isFalse hc4 => exact absurd h (by simp)

/-- The four forms are pairwise exclusive: no filename matches two of the
four role patterns. -/
theorem forms_disjoint (f : List Char) :
    ¬ (SourceForm f ∧ RawForm f) ∧ ¬ (SourceForm f ∧ TidyForm f) ∧
      ¬ (SourceForm f ∧ YmlForm f) ∧ ¬ (RawForm f ∧ TidyForm f) ∧
      ¬ (RawForm f ∧ YmlForm f) ∧ ¬ (TidyForm f ∧ YmlForm f) := by
  refine ⟨?_, ?_, ?_, ?_, ?_, ?_⟩
  · rintro ⟨h1, h2⟩
    rw [SourceForm_iff] at h1
    rw [RawForm_iff] at h2
    obtain ⟨E1, hE1⟩ := List.isPrefixOf_iff_prefix.mp h1.2.1
    obtain ⟨E2, hE2⟩ := List.isPrefixOf_iff_prefix.mp h2.2.1
    rw [← hE2] at hE1
    have h3 := congrArg (fun l => l.get? 1) hE1
    simp at h3
  · rintro ⟨h1, h2⟩
    rw [SourceForm_iff] at h1
    rw [TidyForm_iff] at h2
    obtain ⟨E1, hE1⟩ := List.isPrefixOf_iff_prefix.mp h1.2.1
    rw [h2.2] at hE1
    have h3 := congrArg (fun l => l.get? 0) hE1
    simp at h3
  · rintro ⟨h1, h2⟩
    rw [SourceForm_iff] at h1
    rw [YmlForm_iff] at h2
    obtain ⟨E1, hE1⟩ := List.isPrefixOf_iff_prefix.mp h1.2.1
    rw [h2.2] at hE1
    have h3 := congrArg (fun l => l.get? 0) hE1
    simp at h3
  · rintro ⟨h1, h2⟩
    rw [RawForm_iff] at h1
    rw [TidyForm_iff] at h2
    obtain ⟨E1, hE1⟩ := List.isPrefixOf_iff_prefix.mp h1.2.1
    rw [h2.2] at hE1
    have h3 := congrArg (fun l => l.get? 0) hE1
    simp at h3
  · rintro ⟨h1, h2⟩
    rw [RawForm_iff] at h1
    rw [YmlForm_iff] at h2
    obtain ⟨E1, hE1⟩ := List.isPrefixOf_iff_prefix.mp h1.2.1
    rw [h2.2] at hE1
    have h3 := congrArg (fun l => l.get? 0) hE1
    simp at h3
  · rintro ⟨h1, h2⟩
    rw [TidyForm_iff] at h1
    rw [YmlForm_iff] at h2
    rw [h1.2] at h2
    have h3 := congrArg (fun l => l.get? 1) h2.2
    simp at h3

/-- The investigation name the classifier returns is the (non-empty)
maximal word run of the filename. -/
theorem classify_name (f : List Char) (r : Role) (i : List Char)
    (h : classify f = some (r, i)) :
    i = f.takeWhile wordChar ∧ f.takeWhile wordChar ≠ [] := by
  simp only [classify] at h
  split at h
  · exact absurd h (by simp)
  case isFalse hrun =>
    have hne : f.takeWhile wordChar ≠ [] := fun hh =>
      hrun (by simp [List.isEmpty_iff, hh])
    split at h
    · exact ⟨(congrArg Prod.snd (Option.some.inj h)).symm, hne⟩
    · split at h
      · exact ⟨(congrArg Prod.snd (Option.some.inj h)).symm, hne⟩
      · split at h
        · exact ⟨(congrArg Prod.snd (Option.some.inj h)).symm, hne⟩
        · split at h
          · exact ⟨(congrArg Prod.snd (Option.some.inj h)).symm, hne⟩
          · exact absurd h (by simp)

/-! ## Claim C1 -/

/-- Claim C1 (counterexample): the filename `"a.tsv\n"` is of none of the
four forms and is not one of the two always-ignored names, so by the claim
it should be unmatched; yet the classifier assigns it the tidy role
(Python's `$` also matches just before a trailing newline), refuting the
claim as stated. -/
theorem C1_counterexample :
    (¬ SourceForm ("a.tsv\n".toList) ∧ ¬ RawForm ("a.tsv\n".toList) ∧
      ¬ TidyForm ("a.tsv\n".toList) ∧ ¬ YmlForm ("a.tsv\n".toList) ∧
      "a.tsv\n".toList ∉ ignoredNames) ∧
    classify ("a.tsv\n".toList) = some (.tidy, ['a']) := by
  refine ⟨⟨?_, ?_, ?_, ?_, by decide⟩, by decide⟩
  · rw [SourceForm_iff]
    decide
  · rw [RawForm_iff]
    decide
  · rw [TidyForm_iff]
    decide
  · rw [YmlForm_iff]
    decide

/-- Claim C1 (amended: restricted to filenames without a newline
character): every filename of the form `X-source.E`, `X-raw.E`, `X.tsv`
or `X.yml` (X non-empty over `[A-Za-z0-9_]`, E non-empty) is classified
with exactly that role and investigation name `X`; every other such
filename is classified unmatched, and an unmatched non-ignored file makes
the classification loop emit the naming-pattern error; no filename
matches two of the four role patterns. -/
theorem C1_amended (f : List Char) (hnl : ∀ c ∈ f, c ≠ '\n') :
    (∀ X E, X ≠ [] → (∀ c ∈ X, wordChar c = true) → E ≠ [] →
      f = X ++ "-source.".toList ++ E → classify f = some (.source, X)) ∧
    (∀ X E, X ≠ [] → (∀ c ∈ X, wordChar c = true) → E ≠ [] →
      f = X ++ "-raw.".toList ++ E → classify f = some (.raw, X)) ∧
    (∀ X, X ≠ [] → (∀ c ∈ X, wordChar c = true) →
      f = X ++ ".tsv".toList → classify f = some (.tidy, X)) ∧
    (∀ X, X ≠ [] → (∀ c ∈ X, wordChar c = true) →
      f = X ++ ".yml".toList → classify f = some (.sidecar, X)) ∧
    (¬ SourceForm f → ¬ RawForm f → ¬ TidyForm f → ¬ YmlForm f →
      classify f = none) ∧
    (∀ st d, classify f = none → f ∉ ignoredNames →
      groupStep st (.file f d) = (st.1, st.2 ++ [unmatchedErr f])) ∧
    (¬ (SourceForm f ∧ RawForm f) ∧ ¬ (SourceForm f ∧ TidyForm f) ∧
      ¬ (SourceForm f ∧ YmlForm f) ∧ ¬ (RawForm f ∧ TidyForm f) ∧
      ¬ (RawForm f ∧ YmlForm f) ∧ ¬ (TidyForm f ∧ YmlForm f)) := by
  refine ⟨?_, ?_, ?_, ?_, ?_, ?_, forms_disjoint f⟩
  · intro X E hX hw hE hf
    subst hf
    exact classify_source X E hX hw hE fun c hc => hnl c (by simp [hc])
  · intro X E hX hw hE hf
    subst hf
    exact classify_raw X E hX hw hE fun c hc => hnl c (by simp [hc])
  · intro X hX hw hf
    subst hf
    exact classify_tidy X hX hw
  · intro X hX hw hf
    subst hf
    exact classify_yml X hX hw
  · intro h1 h2 h3 h4
    cases hcl : classify f with
    | none => rfl
    | some p =>
      rcases classify_some_form f p.1 p.2 hnl (by rw [hcl]) with
        ⟨_, hF⟩ | ⟨_, hF⟩ | ⟨_, hF⟩ | ⟨_, hF⟩
      · exact absurd hF h1
      · exact absurd hF h2
      · exact absurd hF h3
      · exact absurd hF h4
  · intro st d hcl hig
    simp only [groupStep, if_neg hig, hcl]

/-- Claim C1 amended, applied at the source filename `abc-source.txt`. -/
theorem C1_amended_witness :
    classify ("abc-source.txt".toList) = some (.source, "abc".toList) :=
  (C1_amended ("abc-source.txt".toList) (by decide)).1 ("abc".toList)
    ("txt".toList) (by decide) (by decide) (by decide) (by decide)

/-! ## Claim C2 -/

/-- Claim C2: an investigation name produced by the classifier (hence by
grouping) always fully matches `[A-Za-z0-9_]+`; and for any grouped
bundle with exactly one raw, one tidy, one sidecar and at most one source
file, rule set 6 emits no errors (zero source files included). -/
theorem C2_rule6_clean :
    (∀ f r i, classify f = some (r, i) → fullmatchWord i = true) ∧
    (∀ (inv : List Char) (b : Bundle), fullmatchWord inv = true →
      b.raw.length = 1 → b.tidy.length = 1 → b.sidecar.length = 1 →
      b.source.length ≤ 1 → rule6 inv b = []) := by
  constructor
  · intro f r i h
    obtain ⟨hi, hne⟩ := classify_name f r i h
    subst hi
    have h1 : (f.takeWhile wordChar).isEmpty = false := by
      cases hE : (f.takeWhile wordChar).isEmpty
      · rfl
      · exact absurd (List.isEmpty_iff.mp hE) hne
    rw [fullmatchWord, h1]
    simp only [Bool.not_false, Bool.true_and]
    exact List.all_eq_true.mpr fun c hc => List.mem_takeWhile_imp hc
  · intro inv b h0 h1 h2 h3 h4
    rw [rule6, if_pos h0, h1, h2, h3, if_neg (by omega : ¬ b.source.length > 1)]
    simp

/-- Claim C2, applied to a concrete well-formed bundle with zero source
files. -/
theorem C2_rule6_clean_witness :
    rule6 ("abc".toList)
      { source := [], raw := ["abc-raw.csv".toList],
        tidy := ["abc.tsv".toList], sidecar := ["abc.yml".toList] } = [] :=
  C2_rule6_clean.2 ("abc".toList) _ (by decide) rfl rfl rfl (by decide)

/-! ## Claim C5 -/

/-- Claim C5: when a (non-empty) target investigation is requested but not
among the discovered investigations, the check emits exactly one error
naming it, no per-investigation rule errors follow, and the root-level
errors (readme, subfolders, unmatched files) accumulated so far are
preserved. -/
theorem C5_missing_target (ya : Bool) (p : Project) (L : List Entry)
    (t : List Char) (hL : p.dataDir = some L) (ht : t ≠ [])
    (habs : (groupFiles L).1.any (fun q => q.1 == t) = false) :
    check_project_structure ya p (some t) =
      readmeErrs p ++ subfolderErrs L ++ (groupFiles L).2 ++ [notFoundErr t] := by
  simp only [check_project_structure, hL, applyTarget]
  rw [if_neg ht, habs]
  simp

/-- Claim C5, applied to a project with a readme and an empty data folder,
requesting the absent investigation `missing_inv`. -/
theorem C5_missing_target_witness :
    check_project_structure true ⟨true, some []⟩ (some ("missing_inv".toList)) =
      [notFoundErr ("missing_inv".toList)] := by
  rw [C5_missing_target true ⟨true, some []⟩ [] ("missing_inv".toList) rfl
    (by decide) rfl]
  rfl

theorem fieldsOf_all_maps (entries : List (String × List (String × Yaml))) :
    fieldsOf (entries.map fun q => (q.1, Yaml.ymap q.2)) =
      entries.map fun q => mkField q.1 q.2 := by
  induction entries with
  | nil => rfl
  | cons q t ih =>
    show mkField q.1 q.2 :: fieldsOf (t.map fun r => (r.1, Yaml.ymap r.2)) =
      mkField q.1 q.2 :: t.map fun r => mkField r.1 r.2
    exact congrArg _ ih

theorem fieldWarnsOf_all_maps (entries : List (String × List (String × Yaml))) :
    fieldWarnsOf (entries.map fun q => (q.1, Yaml.ymap q.2)) = [] := by
  induction entries with
  | nil => rfl
  | cons q t ih =>
    show fieldWarnsOf (t.map fun r => (r.1, Yaml.ymap r.2)) = []
    exact ih

/-- A key absent from an association list looks up to `none`. -/
theorem lookup_none_of_absent (k : String) :
    ∀ (l : List (String × Yaml)), (∀ q ∈ l, q.1 ≠ k) → l.lookup k = none := by
  intro l
  induction l with
  | nil => intro _; rfl
  | cons a t ih =>
    intro h
    obtain ⟨a1, a2⟩ := a
    have hne : a1 ≠ k := h (a1, a2) (by simp)
    have hb : (k == a1) = false := beq_eq_false_iff_ne.mpr (Ne.symm hne)
    simp only [List.lookup, hb]
    exact ih fun q hq => h q (by simp [hq])

/-- Setting a key already at the head replaces the head value in place
(when no later entry carries the key). -/
theorem dictSet_hit (k : String) (v sv : Yaml) (t : List (String × Yaml))
    (htl : ∀ q ∈ t, q.1 ≠ k) :
    dictSet ((k, v) :: t) k sv = (k, sv) :: t := by
  rw [dictSet, if_pos (by simp)]
  simp only [List.map_cons]
  rw [if_pos (by simp)]
  congr 1
  rw [List.map_congr_left fun q hq => if_neg (by simp [htl q hq])]
  exact List.map_id _

/-- Setting a different key preserves the head entry and keeps every tail
key different from the tracked one. -/
theorem dictSet_shape (k : String) (v : Yaml) (s1 : String) (sv : Yaml)
    (d : List (String × Yaml)) (hne : s1 ≠ k)
    (hd : d.head? = some (k, v)) (htl : ∀ q ∈ d.tail, q.1 ≠ k) :
    (dictSet d s1 sv).head? = some (k, v) ∧
      ∀ q ∈ (dictSet d s1 sv).tail, q.1 ≠ k := by
  cases d with
  | nil => simp at hd
  | cons a t =>
    simp only [List.head?_cons, Option.some.injEq] at hd
    subst hd
    simp only [List.tail_cons] at htl
    rw [dictSet]
    split
    · refine ⟨?_, ?_⟩
      · simp only [List.map_cons]
        rw [if_neg (by simp [Ne.symm hne])]
        rfl
      · intro q hq
        simp only [List.map_cons, List.tail_cons] at hq
        obtain ⟨q0, hq0, hqe⟩ := List.mem_map.mp hq
        by_cases h0 : (q0.1 == s1) = true
        · rw [if_pos h0] at hqe
          rw [← hqe]
          exact hne
        · rw [if_neg h0] at hqe
          rw [← hqe]
          exact htl q0 hq0
    · refine ⟨by rfl, ?_⟩
      intro q hq
      simp only [List.cons_append, List.tail_cons] at hq
      rcases List.mem_append.mp hq with h | h
      · exact htl q h
      · simp only [List.mem_singleton] at h
        rw [h]
        exact hne

/-- After `dictUpdate`, the tracked head key holds the last value `src`
declares for it (its unique value, as `src` is a parsed dict and has no
duplicate keys), or the original head value when `src` never sets it. -/
theorem dictUpdate_lookup (k : String) :
    ∀ (src : List (String × Yaml)), (src.map Prod.fst).Nodup →
      ∀ (v : Yaml) (d : List (String × Yaml)), d.head? = some (k, v) →
        (∀ q ∈ d.tail, q.1 ≠ k) →
        (dictUpdate d src).lookup k = some ((src.lookup k).getD v) := by
  intro src
  induction src with
  | nil =>
    intro _ v d hd _
    cases d with
    | nil => simp at hd
    | cons a t =>
      simp only [List.head?_cons, Option.some.injEq] at hd
      subst hd
      simp [dictUpdate, List.lookup]
  | cons s srest ih =>
    intro hnd v d hd htl
    obtain ⟨s1, sv⟩ := s
    simp only [List.map_cons, List.nodup_cons] at hnd
    rw [dictUpdate, List.foldl_cons]
    by_cases hk : s1 = k
    · subst hk
      cases d with
      | nil => simp at hd
      | cons a t =>
        simp only [List.head?_cons, Option.some.injEq] at hd
        subst hd
        simp only [List.tail_cons] at htl
        rw [show List.foldl (fun acc q => dictSet acc q.1 q.2)
            (dictSet ((s1, v) :: t) (s1, sv).1 (s1, sv).2) srest =
            dictUpdate (dictSet ((s1, v) :: t) s1 sv) srest from rfl]
        rw [dictSet_hit s1 v sv t htl]
        rw [ih hnd.2 sv ((s1, sv) :: t) (by simp) (by simpa using htl)]
        have hnone : srest.lookup s1 = none := by
          refine lookup_none_of_absent s1 srest fun q hq hq1 => hnd.1 ?_
          exact hq1 ▸ List.mem_map_of_mem Prod.fst hq
        simp [List.lookup, hnone]
    · rw [show List.foldl (fun acc q => dictSet acc q.1 q.2)
          (dictSet d (s1, sv).1 (s1, sv).2) srest =
          dictUpdate (dictSet d s1 sv) srest from rfl]
      obtain ⟨hd', htl'⟩ := dictSet_shape k v s1 sv d hk hd htl
      rw [ih hnd.2 v (dictSet d s1 sv) hd' htl']
      have hb : (k == s1) = false := beq_eq_false_iff_ne.mpr (Ne.symm hk)
      have : ((s1, sv) :: srest).lookup k = srest.lookup k := by
        simp only [List.lookup, hb]
      rw [this]

/-! ## Claim C3 -/

/-- Claim C3: a sidecar whose top-level values are all mappings yields one
field record per key in declaration order, each with `name` set to the key
first and the value's attributes copied over it; a `name` attribute
declared inside the value's mapping silently overwrites the injected key;
and the spec's two-column example evaluates exactly as stated. -/
theorem C3_schema_fields :
    (∀ (fname : List Char) (entries : List (String × List (String × Yaml))),
      load_yaml_fields fname
          (.ok (.ymap (entries.map fun q => (q.1, Yaml.ymap q.2)))) =
        .ok (entries.map fun q => mkField q.1 q.2, [])) ∧
    (∀ (k : String) (m : List (String × Yaml)), (m.map Prod.fst).Nodup →
      (mkField k m).lookup "name" =
        some ((m.lookup "name").getD (Yaml.ystr k))) ∧
    load_yaml_fields ("x.yml".toList)
        (.ok (.ymap [("col_a", .ymap [("type", .ystr "string")]),
          ("col_b", .ymap [("type", .ystr "integer")])])) =
      .ok ([[("name", .ystr "col_a"), ("type", .ystr "string")],
        [("name", .ystr "col_b"), ("type", .ystr "integer")]], []) := by
  refine ⟨?_, ?_, by rfl⟩
  · intro fname entries
    show Except.ok (fieldsOf (entries.map fun q => (q.1, Yaml.ymap q.2)),
      fieldWarnsOf (entries.map fun q => (q.1, Yaml.ymap q.2))) = _
    rw [fieldsOf_all_maps, fieldWarnsOf_all_maps]
  · intro k m hnd
    exact dictUpdate_lookup "name" m hnd (Yaml.ystr k)
      [("name", Yaml.ystr k)] rfl (by simp)

/-- Claim C3, applied to a field mapping that itself declares `name`: the
declared value overwrites the injected key. -/
theorem C3_schema_fields_witness :
    (mkField "col" [("name", Yaml.ystr "other")]).lookup "name" =
      some (Yaml.ystr "other") :=
  (C3_schema_fields.2.1 "col" [("name", Yaml.ystr "other")] (by simp)).trans rfl

/-! ## Claim C7 -/

/-- Claim C7: the schema loader is fatal exactly when the sidecar parse
fails or the parsed root is not a mapping; and a top-level key whose value
is not a mapping is never fatal — it is skipped with a warning naming it
and contributes no field record (every produced record stems from a
map-valued key). -/
theorem C7_schema_loader_fatality :
    (∀ (fname : List Char) (src : Except String Yaml),
      (load_yaml_fields fname src).isOk =
        match src with
        | .ok y => y.isMap
        | .error _ => false) ∧
    (∀ (fname : List Char) (entries : List (String × Yaml)) (k : String)
      (v : Yaml), (k, v) ∈ entries → v.isMap = false →
      ∃ fields warns,
        load_yaml_fields fname (.ok (.ymap entries)) = .ok (fields, warns) ∧
        fieldWarn k ∈ warns ∧
        ∀ fld ∈ fields, ∃ k' m, (k', Yaml.ymap m) ∈ entries ∧
          fld = mkField k' m) := by
  constructor
  · intro fname src
    cases src with
    | error e => rfl
    | ok y => cases y <;> rfl
  · intro fname entries k v hmem hnm
    refine ⟨_, _, rfl, ?_, ?_⟩
    · rw [fieldWarnsOf]
      refine List.mem_filterMap.mpr ⟨(k, v), hmem, ?_⟩
      cases v with
      | ymap m => simp [Yaml.isMap] at hnm
      | ynull => rfl
      | ybool b => rfl
      | yint n => rfl
      | ystr s => rfl
      | ylist xs => rfl
    · intro fld hfld
      rw [fieldsOf] at hfld
      obtain ⟨⟨k', v'⟩, hmem', heq⟩ := List.mem_filterMap.mp hfld
      cases v' with
      | ymap m => exact ⟨k', m, hmem', (Option.some.inj heq).symm⟩
      | ynull => exact Option.noConfusion heq
      | ybool b => exact Option.noConfusion heq
      | yint n => exact Option.noConfusion heq
      | ystr s => exact Option.noConfusion heq
      | ylist xs => exact Option.noConfusion heq

/-- Claim C7, applied to a sidecar with one non-mapping field value. -/
theorem C7_schema_loader_fatality_witness :
    ∃ fields warns,
      load_yaml_fields ("x.yml".toList)
          (.ok (.ymap [("a", Yaml.ystr "x")])) = .ok (fields, warns) ∧
      fieldWarn "a" ∈ warns ∧
      ∀ fld ∈ fields, ∃ k' m, (k', Yaml.ymap m) ∈ [("a", Yaml.ystr "x")] ∧
        fld = mkField k' m :=
  C7_schema_loader_fatality.2 ("x.yml".toList) [("a", Yaml.ystr "x")] "a"
    (Yaml.ystr "x") (by simp) rfl

/-! ## Packaging lemmas -/

/-- A successfully built resource carries the shared timestamp, the
investigation's name and path, and — when the tidy file is absent — the
placeholder size and hash together with the printed warning. -/
theorem buildResource_props {σ : Type} (H : HashM σ) (L : List Entry)
    (c : String) (inv : List Char) (e : Entry) (r : Resource)
    (w : List String) (h : buildResource H L c inv e = .ok (r, w)) :
    r.created = c ∧ r.name = inv.asString ∧
      r.path = "data/" ++ inv.asString ++ ".tsv" ∧
      (findFile L (inv ++ ".tsv".toList) = none →
        r.bytes = 0 ∧ r.hash = "" ∧ tsvWarning inv ∈ w) := by
  cases hf : findFile L (inv ++ ".tsv".toList) with
  | some fd =>
    simp only [buildResource, hf] at h
    cases hl : load_yaml_fields e.name (sideSrc e) with
    | error err =>
      rw [hl] at h
      exact absurd h (by simp)
    | ok fw =>
      rw [hl] at h
      have h1 := Except.ok.inj h
      injection h1 with hr hw
      refine ⟨by rw [← hr], by rw [← hr], by rw [← hr], fun hnone => ?_⟩
      exact Option.noConfusion hnone
  | none =>
    simp only [buildResource, hf] at h
    cases hl : load_yaml_fields e.name (sideSrc e) with
    | error err =>
      rw [hl] at h
      exact absurd h (by simp)
    | ok fw =>
      rw [hl] at h
      have h1 := Except.ok.inj h
      injection h1 with hr hw
      refine ⟨by rw [← hr], by rw [← hr], by rw [← hr],
        fun _ => ⟨by rw [← hr], by rw [← hr], ?_⟩⟩
      rw [← hw]
      simp

/-- Every resource a run of the loop produces carries the `created`
argument the loop was given. -/
theorem buildAll_created {σ : Type} (H : HashM σ) (L : List Entry)
    (c : String) :
    ∀ (invs : List (List Char × Entry)) (rw : List Resource × List String),
      buildAll H L c invs = .ok rw → ∀ r ∈ rw.1, r.created = c := by
  intro invs
  induction invs with
  | nil =>
    intro rw h r hr
    rw [show rw = (([] : List Resource), ([] : List String))
      from (Except.ok.inj h).symm] at hr
    simp at hr
  | cons q t ih =>
    intro rw h r hr
    obtain ⟨inv, e⟩ := q
    rw [buildAll] at h
    cases hb : buildResource H L c inv e with
    | error err =>
      rw [hb] at h
      exact absurd h (by simp)
    | ok rw1 =>
      rw [hb] at h
      cases hba : buildAll H L c t with
      | error err =>
        rw [hba] at h
        exact absurd h (by simp)
      | ok rest =>
        rw [hba] at h
        rw [show rw = (rw1.1 :: rest.1, rw1.2 ++ rest.2)
          from (Except.ok.inj h).symm] at hr
        rcases List.mem_cons.mp hr with hr | hr
        · rw [hr]
          exact (buildResource_props H L c inv e rw1.1 rw1.2 (by rw [hb])).1
        · exact ih rest hba r hr

/-- When every discovered sidecar loads, the whole loop succeeds, and
each discovered investigation contributes its built resource and its
warnings to the run's output. -/
theorem buildAll_total {σ : Type} (H : HashM σ) (L : List Entry)
    (c : String) :
    ∀ (invs : List (List Char × Entry)),
      (∀ q ∈ invs, (load_yaml_fields q.2.name (sideSrc q.2)).isOk = true) →
      ∃ rw, buildAll H L c invs = .ok rw ∧
        ∀ q ∈ invs, ∃ r w', buildResource H L c q.1 q.2 = .ok (r, w') ∧
          r ∈ rw.1 ∧ ∀ x ∈ w', x ∈ rw.2 := by
  intro invs
  induction invs with
  | nil => exact fun _ => ⟨([], []), rfl, by simp⟩
  | cons q t ih =>
    intro hok
    obtain ⟨inv, e⟩ := q
    have hE : (load_yaml_fields e.name (sideSrc e)).isOk = true :=
      hok (inv, e) (by simp)
    obtain ⟨fw, hfw⟩ : ∃ fw, load_yaml_fields e.name (sideSrc e) = .ok fw := by
      cases hl : load_yaml_fields e.name (sideSrc e) with
      | error err =>
        rw [hl] at hE
        exact absurd hE (by simp [Except.isOk, Except.toBool])
      | ok fw => exact ⟨fw, rfl⟩
    obtain ⟨r, w', hb⟩ : ∃ r w', buildResource H L c inv e = .ok (r, w') := by
      cases hf : findFile L (inv ++ ".tsv".toList) with
      | some fd =>
        simp only [buildResource, hf, hfw]
        exact ⟨_, _, rfl⟩
      | none =>
        simp only [buildResource, hf, hfw]
        exact ⟨_, _, rfl⟩
    obtain ⟨rest, hrest, hall⟩ := ih fun q hq => hok q (by simp [hq])
    refine ⟨(r :: rest.1, w' ++ rest.2), ?_, ?_⟩
    · rw [buildAll, hb, hrest]
    · intro q hq
      rcases List.mem_cons.mp hq with hq | hq
      · rw [hq]
        exact ⟨r, w', hb, by simp, fun x hx => by simp [hx]⟩
      · obtain ⟨r2, w2, hb2, hr2, hw2⟩ := hall q hq
        exact ⟨r2, w2, hb2, by simp [hr2], fun x hx => by simp [hw2 x hx]⟩

/-- Two runs of one loop iteration at different timestamps agree once the
`created` field is blanked. -/
theorem buildResource_strip {σ : Type} (H : HashM σ) (L : List Entry)
    (c1 c2 : String) (inv : List Char) (e : Entry) :
    Except.map (fun rw => (stripCreated rw.1, rw.2))
        (buildResource H L c1 inv e) =
      Except.map (fun rw => (stripCreated rw.1, rw.2))
        (buildResource H L c2 inv e) := by
  cases hf : findFile L (inv ++ ".tsv".toList) <;>
    cases hl : load_yaml_fields e.name (sideSrc e) <;>
      simp [buildResource, hf, hl, stripCreated, Except.map]

/-- Two runs of the whole loop at different timestamps agree once every
`created` field is blanked. -/
theorem buildAll_strip {σ : Type} (H : HashM σ) (L : List Entry)
    (c1 c2 : String) :
    ∀ invs,
      Except.map (fun rw => (rw.1.map stripCreated, rw.2))
          (buildAll H L c1 invs) =
        Except.map (fun rw => (rw.1.map stripCreated, rw.2))
          (buildAll H L c2 invs) := by
  intro invs
  induction invs with
  | nil => rfl
  | cons q t ih =>
    obtain ⟨inv, e⟩ := q
    have hb := buildResource_strip H L c1 c2 inv e
    cases hb1 : buildResource H L c1 inv e with
    | error err =>
      cases hb2 : buildResource H L c2 inv e with
      | error err2 =>
        rw [hb1, hb2] at hb
        simp only [Except.map] at hb
        simp [buildAll, hb1, hb2, Except.map, Except.error.inj hb]
      | ok rw2 =>
        rw [hb1, hb2] at hb
        simp [Except.map] at hb
    | ok rw1 =>
      cases hb2 : buildResource H L c2 inv e with
      | error err2 =>
        rw [hb1, hb2] at hb
        simp [Except.map] at hb
      | ok rw2 =>
        rw [hb1, hb2] at hb
        simp only [Except.map] at hb
        have hb' := Except.ok.inj hb
        injection hb' with hs hw
        simp only [buildAll, hb1, hb2]
        cases ha1 : buildAll H L c1 t with
        | error e1 =>
          cases ha2 : buildAll H L c2 t with
          | error e2 =>
            rw [ha1, ha2] at ih
            simp only [Except.map] at ih
            simp [Except.map, Except.error.inj ih]
          | ok r2 =>
            rw [ha1, ha2] at ih
            simp [Except.map] at ih
        | ok r1 =>
          cases ha2 : buildAll H L c2 t with
          | error e2 =>
            rw [ha1, ha2] at ih
            simp [Except.map] at ih
          | ok r2 =>
            rw [ha1, ha2] at ih
            simp only [Except.map] at ih
            have ih' := Except.ok.inj ih
            injection ih' with h1 h2
            simp only [Except.map, List.map_cons]
            rw [hs, hw, h1, h2]

/-- The member of a freshly set key. -/
theorem dictSetG_mem_self {α : Type} (d : List (List Char × α))
    (k : List Char) (v : α) : (k, v) ∈ dictSetG d k v := by
  rw [dictSetG]
  split
  case isTrue h =>
    obtain ⟨q, hq, hqk⟩ := List.any_eq_true.mp h
    exact List.mem_map.mpr ⟨q, hq, by rw [if_pos hqk]⟩
  case isFalse h => simp

/-- Setting one key keeps every existing key present. -/
theorem dictSetG_mem_keep {α : Type} (d : List (List Char × α))
    (k0 : List Char) (v0 : α) (k : List Char) (v : α)
    (h : (k0, v0) ∈ d) : ∃ v', (k0, v') ∈ dictSetG d k v := by
  rw [dictSetG]
  split
  · by_cases hk : (k0 == k) = true
    · have hk' : k0 = k := eq_of_beq hk
      subst hk'
      exact ⟨v, List.mem_map.mpr ⟨(k0, v0), h, by rw [if_pos (by simp)]⟩⟩
    · exact ⟨v0, List.mem_map.mpr ⟨(k0, v0), h,
        by rw [if_neg (by simpa using hk)]⟩⟩
  · exact ⟨v0, by simp [h]⟩

/-- The discovery fold keeps every key already present. -/
theorem discover_fold_keep :
    ∀ (L : List Entry) (acc : List (List Char × Entry)) (k0 : List Char),
      (∃ v', (k0, v') ∈ acc) →
      ∃ v', (k0, v') ∈ L.foldl discoverStep acc := by
  intro L
  induction L with
  | nil => exact fun acc k0 h => h
  | cons e t ih =>
    intro acc k0 h
    rw [List.foldl_cons]
    apply ih
    rw [discoverStep]
    split
    · obtain ⟨v', hv⟩ := h
      exact dictSetG_mem_keep acc k0 v' _ e hv
    · exact h

/-- Package-mode discovery finds every data-folder entry whose name ends
in `.yml`, keyed by the name's stem. -/
theorem discover_mem :
    ∀ (L : List Entry) (acc : List (List Char × Entry)) (e : Entry),
      e ∈ L → ".yml".toList.isSuffixOf e.name = true →
      ∃ e', (splitextStem e.name, e') ∈ L.foldl discoverStep acc := by
  intro L
  induction L with
  | nil => intro _ _ h; simp at h
  | cons a t ih =>
    intro acc e he hsuf
    rcases List.mem_cons.mp he with he | he
    · rw [List.foldl_cons]
      apply discover_fold_keep
      rw [← he, discoverStep, if_pos hsuf]
      exact ⟨e, dictSetG_mem_self _ _ _⟩
    · rw [List.foldl_cons]
      exact ih (discoverStep acc a) e he hsuf

/-! ## UTF-8 decoder correctness (for claim C4) -/

theorem encodeChar_length_pos (c : Nat) : 0 < (encodeChar c).length := by
  rw [encodeChar]
  split
  · simp
  · split
    · simp
    · split <;> simp

theorem utf8Encode_cons (c : Nat) (t : List Nat) :
    utf8Encode (c :: t) = encodeChar c ++ utf8Encode t := rfl

/-- The strict decoder consumes one valid scalar's encoding and goes on. -/
theorem decodeChunk_enc (c : Nat) (hc : scalarOK c = true) (r : List Nat) :
    decodeChunk (encodeChar c ++ r) = consHead c (decodeChunk r) := by
  have hsc : c < 0xD800 ∨ (0xE000 ≤ c ∧ c ≤ 0x10FFFF) := by
    simpa [scalarOK, Bool.or_eq_true, Bool.and_eq_true,
      decide_eq_true_eq] using hc
  by_cases h1 : c < 0x80
  · simp only [encodeChar, if_pos h1, List.singleton_append]
    conv_lhs => unfold decodeChunk
    simp only [if_pos h1]
  · by_cases h2 : c < 0x800
    · have hb1 : ¬(0xC0 + c / 64 < 0x80) := by omega
      have hb2 : (decide (0xC2 ≤ 0xC0 + c / 64) &&
          decide (0xC0 + c / 64 ≤ 0xDF)) = true := by
        simp only [Bool.and_eq_true, decide_eq_true_eq]
        omega
      have hcont : contB (0x80 + c % 64) = true := by
        simp only [contB, Bool.and_eq_true, decide_eq_true_eq]
        omega
      have hcp : (0xC0 + c / 64 - 0xC0) * 64 + (0x80 + c % 64 - 0x80) = c := by
        omega
      simp only [encodeChar, if_neg h1, if_pos h2, List.cons_append,
        List.nil_append]
      conv_lhs => unfold decodeChunk
      simp only [if_neg hb1, if_pos hb2, if_pos hcont, hcp]
    · by_cases h3 : c < 0x10000
      · have hb1 : ¬(0xE0 + c / 4096 < 0x80) := by omega
        have hnb2 : ¬((decide (0xC2 ≤ 0xE0 + c / 4096) &&
            decide (0xE0 + c / 4096 ≤ 0xDF)) = true) := by
          simp only [Bool.and_eq_true, decide_eq_true_eq]
          omega
        have hb3 : (decide (0xE0 ≤ 0xE0 + c / 4096) &&
            decide (0xE0 + c / 4096 ≤ 0xEF)) = true := by
          simp only [Bool.and_eq_true, decide_eq_true_eq]
          omega
        have hrange : (decide ((if 0xE0 + c / 4096 = 0xE0 then 0xA0 else 0x80) ≤
              0x80 + c / 64 % 64) &&
            decide (0x80 + c / 64 % 64 ≤
              if 0xE0 + c / 4096 = 0xED then 0x9F else 0xBF)) = true := by
          simp only [Bool.and_eq_true, decide_eq_true_eq]
          constructor <;> split <;> omega
        have hcont : contB (0x80 + c % 64) = true := by
          simp only [contB, Bool.and_eq_true, decide_eq_true_eq]
          omega
        have hcp : (0xE0 + c / 4096 - 0xE0) * 4096 +
            (0x80 + c / 64 % 64 - 0x80) * 64 + (0x80 + c % 64 - 0x80) = c := by
          omega
        simp only [encodeChar, if_neg h1, if_neg h2, if_pos h3,
          List.cons_append, List.nil_append]
        conv_lhs => unfold decodeChunk
        simp only [if_neg hb1, if_neg hnb2, if_pos hb3, if_pos hrange,
          if_pos hcont, hcp]
      · have hcle : c ≤ 0x10FFFF := by omega
        have hb1 : ¬(0xF0 + c / 262144 < 0x80) := by omega
        have hnb2 : ¬((decide (0xC2 ≤ 0xF0 + c / 262144) &&
            decide (0xF0 + c / 262144 ≤ 0xDF)) = true) := by
          simp only [Bool.and_eq_true, decide_eq_true_eq]
          omega
        have hnb3 : ¬((decide (0xE0 ≤ 0xF0 + c / 262144) &&
            decide (0xF0 + c / 262144 ≤ 0xEF)) = true) := by
          simp only [Bool.and_eq_true, decide_eq_true_eq]
          omega
        have hb4 : (decide (0xF0 ≤ 0xF0 + c / 262144) &&
            decide (0xF0 + c / 262144 ≤ 0xF4)) = true := by
          simp only [Bool.and_eq_true, decide_eq_true_eq]
          omega
        have hrange : (decide ((if 0xF0 + c / 262144 = 0xF0 then 0x90
                else 0x80) ≤ 0x80 + c / 4096 % 64) &&
            decide (0x80 + c / 4096 % 64 ≤
              if 0xF0 + c / 262144 = 0xF4 then 0x8F else 0xBF)) = true := by
          simp only [Bool.and_eq_true, decide_eq_true_eq]
          constructor <;> split <;> omega
        have hcont3 : contB (0x80 + c / 64 % 64) = true := by
          simp only [contB, Bool.and_eq_true, decide_eq_true_eq]
          omega
        have hcont4 : contB (0x80 + c % 64) = true := by
          simp only [contB, Bool.and_eq_true, decide_eq_true_eq]
          omega
        have hcp : (0xF0 + c / 262144 - 0xF0) * 262144 +
            (0x80 + c / 4096 % 64 - 0x80) * 4096 +
            (0x80 + c / 64 % 64 - 0x80) * 64 + (0x80 + c % 64 - 0x80) = c := by
          omega
        simp only [encodeChar, if_neg h1, if_neg h2, if_neg h3,
          List.cons_append, List.nil_append]
        conv_lhs => unfold decodeChunk
        simp only [if_neg hb1, if_neg hnb2, if_neg hnb3, if_pos hb4,
          if_pos hrange, if_pos hcont3, if_pos hcont4, hcp]

/-- A proper front of one valid scalar's encoding is carried whole as a
pending sequence. -/
theorem decodeChunk_encPartial (c : Nat) (hc : scalarOK c = true) :
    ∀ m, m < (encodeChar c).length →
      decodeChunk ((encodeChar c).take m) = .ok ([], (encodeChar c).take m) := by
  have hsc : c < 0xD800 ∨ (0xE000 ≤ c ∧ c ≤ 0x10FFFF) := by
    simpa [scalarOK, Bool.or_eq_true, Bool.and_eq_true,
      decide_eq_true_eq] using hc
  intro m hm
  by_cases h1 : c < 0x80
  · simp only [encodeChar, if_pos h1, List.length_singleton] at hm
    have hm0 : m = 0 := by omega
    subst hm0
    rfl
  · by_cases h2 : c < 0x800
    · have hb1 : ¬(0xC0 + c / 64 < 0x80) := by omega
      have hb2 : (decide (0xC2 ≤ 0xC0 + c / 64) &&
          decide (0xC0 + c / 64 ≤ 0xDF)) = true := by
        simp only [Bool.and_eq_true, decide_eq_true_eq]
        omega
      simp only [encodeChar, if_neg h1, if_pos h2, List.length_cons,
        List.length_singleton, List.length_nil] at hm ⊢
      have hm2 : m = 0 ∨ m = 1 := by omega
      rcases hm2 with rfl | rfl
      · rfl
      · show decodeChunk [0xC0 + c / 64] = .ok ([], [0xC0 + c / 64])
        conv_lhs => unfold decodeChunk
        simp only [if_neg hb1, if_pos hb2]
    · by_cases h3 : c < 0x10000
      · have hb1 : ¬(0xE0 + c / 4096 < 0x80) := by omega
        have hnb2 : ¬((decide (0xC2 ≤ 0xE0 + c / 4096) &&
            decide (0xE0 + c / 4096 ≤ 0xDF)) = true) := by
          simp only [Bool.and_eq_true, decide_eq_true_eq]
          omega
        have hb3 : (decide (0xE0 ≤ 0xE0 + c / 4096) &&
            decide (0xE0 + c / 4096 ≤ 0xEF)) = true := by
          simp only [Bool.and_eq_true, decide_eq_true_eq]
          omega
        have hrange : (decide ((if 0xE0 + c / 4096 = 0xE0 then 0xA0
                else 0x80) ≤ 0x80 + c / 64 % 64) &&
            decide (0x80 + c / 64 % 64 ≤
              if 0xE0 + c / 4096 = 0xED then 0x9F else 0xBF)) = true := by
          simp only [Bool.and_eq_true, decide_eq_true_eq]
          constructor <;> split <;> omega
        simp only [encodeChar, if_neg h1, if_neg h2, if_pos h3,
          List.length_cons, List.length_singleton, List.length_nil] at hm ⊢
        have hm2 : m = 0 ∨ m = 1 ∨ m = 2 := by omega
        rcases hm2 with rfl | rfl | rfl
        · rfl
        · show decodeChunk [0xE0 + c / 4096] = .ok ([], [0xE0 + c / 4096])
          conv_lhs => unfold decodeChunk
          simp only [if_neg hb1, if_neg hnb2, if_pos hb3]
        · show decodeChunk [0xE0 + c / 4096, 0x80 + c / 64 % 64] =
            .ok ([], [0xE0 + c / 4096, 0x80 + c / 64 % 64])
          conv_lhs => unfold decodeChunk
          simp only [if_neg hb1, if_neg hnb2, if_pos hb3, if_pos hrange]
      · have hb1 : ¬(0xF0 + c / 262144 < 0x80) := by omega
        have hnb2 : ¬((decide (0xC2 ≤ 0xF0 + c / 262144) &&
            decide (0xF0 + c / 262144 ≤ 0xDF)) = true) := by
          simp only [Bool.and_eq_true, decide_eq_true_eq]
          omega
        have hnb3 : ¬((decide (0xE0 ≤ 0xF0 + c / 262144) &&
            decide (0xF0 + c / 262144 ≤ 0xEF)) = true) := by
          simp only [Bool.and_eq_true, decide_eq_true_eq]
          omega
        have hb4 : (decide (0xF0 ≤ 0xF0 + c / 262144) &&
            decide (0xF0 + c / 262144 ≤ 0xF4)) = true := by
          simp only [Bool.and_eq_true, decide_eq_true_eq]
          omega
        have hrange : (decide ((if 0xF0 + c / 262144 = 0xF0 then 0x90
                else 0x80) ≤ 0x80 + c / 4096 % 64) &&
            decide (0x80 + c / 4096 % 64 ≤
              if 0xF0 + c / 262144 = 0xF4 then 0x8F else 0xBF)) = true := by
          simp only [Bool.and_eq_true, decide_eq_true_eq]
          constructor <;> split <;> omega
        have hcont3 : contB (0x80 + c / 64 % 64) = true := by
          simp only [contB, Bool.and_eq_true, decide_eq_true_eq]
          omega
        simp only [encodeChar, if_neg h1, if_neg h2, if_neg h3,
          List.length_cons, List.length_singleton, List.length_nil] at hm ⊢
        have hm2 : m = 0 ∨ m = 1 ∨ m = 2 ∨ m = 3 := by omega
        rcases hm2 with rfl | rfl | rfl | rfl
        · rfl
        · show decodeChunk [0xF0 + c / 262144] = .ok ([], [0xF0 + c / 262144])
          conv_lhs => unfold decodeChunk
          simp only [if_neg hb1, if_neg hnb2, if_neg hnb3, if_pos hb4]
        · show decodeChunk [0xF0 + c / 262144, 0x80 + c / 4096 % 64] =
            .ok ([], [0xF0 + c / 262144, 0x80 + c / 4096 % 64])
          conv_lhs => unfold decodeChunk
          simp only [if_neg hb1, if_neg hnb2, if_neg hnb3, if_pos hb4,
            if_pos hrange]
        · show decodeChunk [0xF0 + c / 262144, 0x80 + c / 4096 % 64,
              0x80 + c / 64 % 64] =
            .ok ([], [0xF0 + c / 262144, 0x80 + c / 4096 % 64,
              0x80 + c / 64 % 64])
          conv_lhs => unfold decodeChunk
          simp only [if_neg hb1, if_neg hnb2, if_neg hnb3, if_pos hb4,
            if_pos hrange, if_pos hcont3]

/-- Decoding any front of a valid encoded stream succeeds: the decoded
characters are a front of the original characters and the pending bytes
are a proper front of the next character's encoding. -/
theorem decodeChunk_take (cs : List Nat) (hsc : ∀ c ∈ cs, scalarOK c = true) :
    ∀ m, ∃ cs1 cs2 k, cs = cs1 ++ cs2 ∧
      decodeChunk ((utf8Encode cs).take m) =
        .ok (cs1, (utf8Encode cs2).take k) ∧
      (utf8Encode cs).take m = utf8Encode cs1 ++ (utf8Encode cs2).take k ∧
      (utf8Encode cs).drop m = (utf8Encode cs2).drop k ∧
      (match cs2 with
       | [] => k = 0
       | c :: _ => k < (encodeChar c).length) := by
  induction cs with
  | nil =>
    intro m
    exact ⟨[], [], 0, rfl, by simp [utf8Encode, decodeChunk], by simp [utf8Encode],
      by simp [utf8Encode], rfl⟩
  | cons c t ih =>
    intro m
    have hc : scalarOK c = true := hsc c (by simp)
    by_cases hlen : (encodeChar c).length ≤ m
    · obtain ⟨cs1, cs2, k, hsplit, hdec, htake, hdrop, hk⟩ :=
        ih (fun x hx => hsc x (by simp [hx])) (m - (encodeChar c).length)
      refine ⟨c :: cs1, cs2, k, by rw [hsplit]; rfl, ?_, ?_, ?_, hk⟩
      · rw [utf8Encode_cons, List.take_append_eq_append_take,
          List.take_of_length_le hlen, decodeChunk_enc c hc, hdec]
        rfl
      · rw [utf8Encode_cons, List.take_append_eq_append_take,
          List.take_of_length_le hlen, htake, utf8Encode_cons,
          List.append_assoc]
      · rw [utf8Encode_cons, List.drop_append_eq_append_drop,
          List.drop_eq_nil_of_le hlen, hdrop, List.nil_append]
    · push_neg at hlen
      have htm : (utf8Encode (c :: t)).take m = (encodeChar c).take m := by
        rw [utf8Encode_cons, List.take_append_eq_append_take,
          Nat.sub_eq_zero_of_le (le_of_lt hlen), List.take_zero,
          List.append_nil]
      refine ⟨[], c :: t, m, rfl, ?_, ?_, rfl, hlen⟩
      · rw [htm]
        exact decodeChunk_encPartial c hc m hlen
      · rw [show utf8Encode [] = [] from rfl, List.nil_append]

/-- Universal-newline translation distributes over append unless the
split separates a `\r\n` pair. -/
theorem translate_append (x y : List Nat)
    (h : ¬(x.getLast? = some 13 ∧ y.head? = some 10)) :
    translate (x ++ y) = translate x ++ translate y := by
  generalize hn : x.length = n
  induction n using Nat.strong_induction_on generalizing x y with
  | _ n ih =>
    match x, hn with
    | [], _ => simp [translate]
    | [c], _ =>
      cases y with
      | nil => simp [translate]
      | cons d t =>
        show translate (c :: d :: t) = translate [c] ++ translate (d :: t)
        by_cases hc : c = 13
        · subst hc
          have hd : ¬(d = 10) := fun hd10 => h ⟨rfl, by rw [hd10]; rfl⟩
          simp [translate, hd]
        · simp [translate, hc]
    | c :: c2 :: t, hn =>
      have hlast : (c :: c2 :: t).getLast? = (c2 :: t).getLast? :=
        List.getLast?_cons_cons
      have hyp2 : ¬((c2 :: t).getLast? = some 13 ∧ y.head? = some 10) := by
        intro hcontra
        exact h ⟨by rw [hlast]; exact hcontra.1, hcontra.2⟩
      have ih2 : translate (c2 :: (t ++ y)) =
          translate (c2 :: t) ++ translate y := by
        rw [show c2 :: (t ++ y) = (c2 :: t) ++ y from rfl]
        refine ih (c2 :: t).length ?_ (c2 :: t) y hyp2 rfl
        rw [← hn]
        simp only [List.length_cons]
        omega
      show translate (c :: c2 :: (t ++ y)) =
        translate (c :: c2 :: t) ++ translate y
      by_cases hc : c = 13
      · subst hc
        by_cases hc2 : c2 = 10
        · subst hc2
          have hypt : ¬(t.getLast? = some 13 ∧ y.head? = some 10) := by
            intro hcontra
            refine h ⟨?_, hcontra.2⟩
            rw [hlast]
            cases t with
            | nil => simp at hcontra
            | cons e t' =>
              rw [List.getLast?_cons_cons]
              exact hcontra.1
          have iht : translate (t ++ y) = translate t ++ translate y := by
            refine ih t.length ?_ t y hypt rfl
            rw [← hn]
            simp only [List.length_cons]
            omega
          simp [translate, iht]
        · simp [translate, hc2, ih2]
      · simp [translate, hc, ih2]

/-- `nlDecode` written with `optCR`. -/
theorem nlDecode_eq (pend : Bool) (cs : List Nat) :
    nlDecode pend cs =
      (if (optCR pend cs).getLast? = some 13
        then (translate (optCR pend cs).dropLast, true)
        else (translate (optCR pend cs), false)) := rfl

/-- Composing one incremental newline-decode step with the translation of
the rest reproduces the translation of the whole (with the pending
carriage return prepended). -/
theorem nl_comp (pend : Bool) (cs1 cs2 : List Nat) :
    translate (optCR pend (cs1 ++ cs2)) =
      (nlDecode pend cs1).1 ++
        translate (optCR (nlDecode pend cs1).2 cs2) := by
  have hopt : optCR pend (cs1 ++ cs2) = optCR pend cs1 ++ cs2 := by
    cases pend <;> rfl
  rw [hopt, nlDecode_eq]
  by_cases hl : (optCR pend cs1).getLast? = some 13
  · rw [if_pos hl]
    show translate (optCR pend cs1 ++ cs2) =
      translate (optCR pend cs1).dropLast ++ translate (optCR true cs2)
    have hne : optCR pend cs1 ≠ [] := by
      intro h0
      rw [h0] at hl
      simp at hl
    have hg : (optCR pend cs1).getLast hne = 13 := by
      have h2 := (List.getLast?_eq_getLast (optCR pend cs1) hne) ▸ hl
      exact Option.some.inj h2
    have hsplit : (optCR pend cs1).dropLast ++ [13] = optCR pend cs1 := by
      rw [← hg]
      exact List.dropLast_append_getLast hne
    conv_lhs => rw [← hsplit, List.append_assoc]
    rw [translate_append (optCR pend cs1).dropLast ([13] ++ cs2)
      (by intro hcontra; simp at hcontra)]
    rfl
  · rw [if_neg hl]
    exact translate_append _ _ (fun hc => hl hc.1)

/-- `upToNL` on a cons, holding the tail abstract. -/
theorem upToNL_cons (c : Nat) (t : List Nat) :
    upToNL (c :: t) = if c = 10 then some [10]
      else (upToNL t).map (fun l => c :: l) := rfl

/-- A first line found in a front of the buffer is the first line of any
extension. -/
theorem upToNL_append_some (a b l : List Nat) (h : upToNL a = some l) :
    upToNL (a ++ b) = some l := by
  induction a generalizing l with
  | nil => exact Option.noConfusion h
  | cons c t ih =>
    rw [upToNL_cons] at h
    rw [show (c :: t) ++ b = c :: (t ++ b) from rfl, upToNL_cons]
    by_cases hc : c = 10
    · rw [if_pos hc] at h ⊢
      exact h
    · rw [if_neg hc] at h ⊢
      cases ht : upToNL t with
      | none =>
        rw [ht] at h
        exact Option.noConfusion h
      | some l2 =>
        rw [ht] at h
        rw [ih l2 ht]
        exact h

/-- When no line end occurs in a front of the buffer, that front passes
through to the first line of any extension. -/
theorem upToNL_append_getD (a b : List Nat) (h : upToNL a = none) :
    (upToNL (a ++ b)).getD (a ++ b) = a ++ (upToNL b).getD b := by
  induction a with
  | nil => rfl
  | cons c t ih =>
    by_cases hc : c = 10
    · rw [upToNL_cons, if_pos hc] at h
      exact Option.noConfusion h
    · rw [upToNL_cons, if_neg hc] at h
      have ht : upToNL t = none := by
        cases ht2 : upToNL t with
        | none => rfl
        | some l =>
          rw [ht2] at h
          exact Option.noConfusion h
      have hih := ih ht
      rw [show (c :: t) ++ b = c :: (t ++ b) from rfl, upToNL_cons, if_neg hc]
      cases htb : upToNL (t ++ b) with
      | none =>
        rw [htb] at hih
        have hih2 : t ++ b = t ++ (upToNL b).getD b := hih
        show c :: (t ++ b) = c :: (t ++ (upToNL b).getD b)
        rw [hih2]
      | some l =>
        rw [htb] at hih
        have hih2 : l = t ++ (upToNL b).getD b := hih
        show c :: l = c :: (t ++ (upToNL b).getD b)
        rw [hih2]

/-- A nonempty sequence's encoding is at least its head's encoding. -/
theorem encodeChar_le_utf8Encode (c : Nat) (t : List Nat) :
    (encodeChar c).length ≤ (utf8Encode (c :: t)).length := by
  rw [utf8Encode_cons, List.length_append]
  omega

/-- The reading loop at end of file with an empty carry: a pending
carriage return is flushed as a final line feed. -/
theorem readLoop_eof (fuel : Nat) (pend : Bool) (acc : List Nat) :
    readLoop fuel [] pend acc [] =
      .ok (acc ++ (upToNL (translate (optCR pend []))).getD
        (translate (optCR pend []))) := by
  cases fuel <;> cases pend <;> rfl

/-- One reading step when the first line end appears in the decoded
chunk. -/
theorem readLoop_cons_done (fuel : Nat) (carry : List Nat) (pend : Bool)
    (acc : List Nat) (b : Nat) (rem cs carry2 l : List Nat)
    (hdec : decodeChunk (carry ++ (b :: rem).take 8192) = .ok (cs, carry2))
    (hup : upToNL (nlDecode pend cs).1 = some l) :
    readLoop (fuel + 1) carry pend acc (b :: rem) = .ok (acc ++ l) := by
  conv_lhs => unfold readLoop
  rw [hdec]
  simp only [hup]

/-- One reading step when no line end appears in the decoded chunk. -/
theorem readLoop_cons_go (fuel : Nat) (carry : List Nat) (pend : Bool)
    (acc : List Nat) (b : Nat) (rem cs carry2 : List Nat)
    (hdec : decodeChunk (carry ++ (b :: rem).take 8192) = .ok (cs, carry2))
    (hup : upToNL (nlDecode pend cs).1 = none) :
    readLoop (fuel + 1) carry pend acc (b :: rem) =
      readLoop fuel carry2 (nlDecode pend cs).2
        (acc ++ (nlDecode pend cs).1) ((b :: rem).drop 8192) := by
  conv_lhs => unfold readLoop
  rw [hdec]
  simp only [hup]

/-- The chunked reading loop on a validly encoded remainder: starting
from a carry that is a front of the next character's encoding, it
returns the accumulated text followed by the first line of the
translated remaining characters (pending carriage return included). -/
theorem readLoop_spec (fuel : Nat) :
    ∀ (todo : List Nat) (k : Nat) (pend : Bool) (acc : List Nat),
      (∀ c ∈ todo, scalarOK c = true) →
      (match todo with
       | [] => k = 0
       | c :: _ => k < (encodeChar c).length) →
      ((utf8Encode todo).drop k).length ≤ fuel →
      readLoop fuel ((utf8Encode todo).take k) pend acc
          ((utf8Encode todo).drop k) =
        .ok (acc ++ (upToNL (translate (optCR pend todo))).getD
          (translate (optCR pend todo))) := by
  induction fuel with
  | zero =>
    intro todo k pend acc _ hk hlen
    match todo, hk with
    | [], hk =>
      subst hk
      exact readLoop_eof 0 pend acc
    | c :: t, hk =>
      exfalso
      have h1 := encodeChar_le_utf8Encode c t
      have h2 : ((utf8Encode (c :: t)).drop k).length =
          (utf8Encode (c :: t)).length - k := List.length_drop _ _
      omega
  | succ fuel ih =>
    intro todo k pend acc hsc hk hlen
    cases hrem : (utf8Encode todo).drop k with
    | nil =>
      match todo, hk with
      | [], hk =>
        subst hk
        exact readLoop_eof (fuel + 1) pend acc
      | c :: t, hk =>
        exfalso
        have h1 := encodeChar_le_utf8Encode c t
        have h2 : ((utf8Encode (c :: t)).drop k).length =
            (utf8Encode (c :: t)).length - k := List.length_drop _ _
        rw [hrem] at h2
        simp only [List.length_nil] at h2
        omega
    | cons b rem2 =>
      obtain ⟨cs1, cs2, k2, hsplit, hdec, _, hdrop, hk2⟩ :=
        decodeChunk_take todo hsc (k + 8192)
      have hchunk : (utf8Encode todo).take k ++ (b :: rem2).take 8192 =
          (utf8Encode todo).take (k + 8192) := by
        rw [List.take_add, hrem]
      have hdec2 : decodeChunk ((utf8Encode todo).take k ++
          (b :: rem2).take 8192) = .ok (cs1, (utf8Encode cs2).take k2) := by
        rw [hchunk]
        exact hdec
      have hd : ((utf8Encode todo).drop k).drop 8192 =
          (utf8Encode todo).drop (k + 8192) := by
        rw [List.drop_drop]
      have hrem2 : (b :: rem2).drop 8192 = (utf8Encode cs2).drop k2 := by
        rw [← hrem, hd, hdrop]
      have hsc2 : ∀ c ∈ cs2, scalarOK c = true := by
        intro c hcmem
        refine hsc c ?_
        rw [hsplit]
        exact List.mem_append_right _ hcmem
      have hlen2 : ((utf8Encode cs2).drop k2).length ≤ fuel := by
        rw [← hrem2]
        have h1 : ((b :: rem2).drop 8192).length =
            (b :: rem2).length - 8192 := List.length_drop _ _
        rw [hrem] at hlen
        simp only [List.length_cons] at hlen h1
        omega
      have hR := nl_comp pend cs1 cs2
      cases hup : upToNL (nlDecode pend cs1).1 with
      | some l =>
        rw [readLoop_cons_done fuel _ pend acc b rem2 cs1 _ l hdec2 hup]
        rw [hsplit, hR, upToNL_append_some _ _ l hup, Option.getD_some]
      | none =>
        rw [readLoop_cons_go fuel _ pend acc b rem2 cs1 _ hdec2 hup]
        rw [hrem2]
        rw [ih cs2 k2 (nlDecode pend cs1).2 (acc ++ (nlDecode pend cs1).1)
          hsc2 hk2 hlen2]
        rw [hsplit, hR, upToNL_append_getD _ _ hup, List.append_assoc]

/-- `readline` on the UTF-8 encoding of valid scalar content returns the
first line of the translated content. -/
theorem readFirstLine_encode (cs : List Nat)
    (hsc : ∀ c ∈ cs, scalarOK c = true) :
    readFirstLine (utf8Encode cs) = .ok (fileFirstLine cs) := by
  have h := readLoop_spec ((utf8Encode cs).length + 1) cs 0 false []
    hsc (by cases cs <;> simp [encodeChar_length_pos]) (by simp)
  simpa [readFirstLine, fileFirstLine, optCR] using h

/-! ## Claim C6 -/

/-- Claim C6: a discovered investigation whose tidy file `data/<name>.tsv`
is absent does not abort packaging: the run completes (all sidecars
loading), it prints the warning for that file, and the investigation's
resource carries `bytes = 0` and `hash = ""`. -/
theorem C6_missing_tidy {σ : Type} (H : HashM σ) (proj : PkgProject)
    (L : List Entry) (now : DateTime) (inv : List Char) (e : Entry)
    (hD : proj.dataDir = some L)
    (hmem : (inv, e) ∈ discoverSidecars L)
    (hmiss : findFile L (inv ++ ".tsv".toList) = none)
    (hok : ∀ q ∈ discoverSidecars L,
      (load_yaml_fields q.2.name (sideSrc q.2)).isOk = true) :
    ∃ pkg w, package_investigations H proj none now = .ok (pkg, w) ∧
      tsvWarning inv ∈ w ∧
      ∃ r ∈ pkg.resources, r.name = inv.asString ∧ r.bytes = 0 ∧
        r.hash = "" := by
  obtain ⟨rw0, hba, hall⟩ :=
    buildAll_total H L (formatTimestamp now) (discoverSidecars L) hok
  obtain ⟨r, w', hb, hr, hw⟩ := hall (inv, e) hmem
  obtain ⟨_, hname, _, hplace⟩ := buildResource_props H L _ inv e r w' hb
  obtain ⟨hb0, hh0, hwmem⟩ := hplace hmiss
  refine ⟨{ name := packageName proj, resources := rw0.1 }, rw0.2, ?_,
    hw _ hwmem, r, hr, hname, hb0, hh0⟩
  simp only [package_investigations, hD, packageCore, filterTarget]
  rw [hba]

/-- Claim C6, applied to a project whose single sidecar `a.yml` has no
companion tidy file. -/
theorem C6_missing_tidy_witness :
    ∃ pkg w,
      package_investigations unitHash sampleProj none sampleNow =
        .ok (pkg, w) ∧
      tsvWarning ("a".toList) ∈ w ∧
      ∃ r ∈ pkg.resources, r.name = ("a".toList).asString ∧ r.bytes = 0 ∧
        r.hash = "" := by
  refine C6_missing_tidy unitHash sampleProj [sampleYml] sampleNow
    ("a".toList) sampleYml rfl ?_ rfl ?_
  · exact List.mem_singleton.mpr rfl
  · intro q hq
    rw [List.mem_singleton.mp hq]
    rfl

/-! ## Claim C8 -/

/-- Claim C8: every resource of one package invocation carries the same
`created` value — the `strftime("%Y-%m-%dT%H:%M:%SZ")` rendering of the
single `utcnow()` captured before the resource loop — so the timestamps
of any two resources of one run coincide. -/
theorem C8_shared_timestamp {σ : Type} (H : HashM σ) (proj : PkgProject)
    (target : Option (List Char)) (now : DateTime) (pkg : Package)
    (w : List String)
    (h : package_investigations H proj target now = .ok (pkg, w)) :
    (∀ r ∈ pkg.resources, r.created = formatTimestamp now) ∧
    ∀ r1 ∈ pkg.resources, ∀ r2 ∈ pkg.resources,
      r1.created = r2.created := by
  have hmain : ∀ r ∈ pkg.resources, r.created = formatTimestamp now := by
    cases hD : proj.dataDir with
    | none =>
      simp only [package_investigations, hD] at h
      exact absurd h (by simp)
    | some L =>
      simp only [package_investigations, hD] at h
      cases hc : packageCore H L target now with
      | error err =>
        simp only [hc] at h
        exact absurd h (by simp)
      | ok rw0 =>
        simp only [hc] at h
        obtain ⟨invs, hba⟩ :
            ∃ invs, buildAll H L (formatTimestamp now) invs = .ok rw0 := by
          rw [packageCore] at hc
          cases hfil : filterTarget (discoverSidecars L) target with
          | error err =>
            simp only [hfil] at hc
            exact absurd hc (by simp)
          | ok invs =>
            simp only [hfil] at hc
            exact ⟨invs, hc⟩
        have h1 := Except.ok.inj h
        injection h1 with hp hw
        intro r hr
        rw [← hp] at hr
        exact buildAll_created H L (formatTimestamp now) invs rw0 hba r hr
  exact ⟨hmain, fun r1 h1 r2 h2 => (hmain r1 h1).trans (hmain r2 h2).symm⟩

/-- Claim C8, applied to a one-sidecar project at a fixed clock value. -/
theorem C8_shared_timestamp_witness :
    ∃ pkg w,
      package_investigations unitHash sampleProj none sampleNow =
        .ok (pkg, w) ∧
      ∀ r ∈ pkg.resources, r.created = formatTimestamp sampleNow := by
  obtain ⟨rw0, hba, _⟩ := buildAll_total unitHash [sampleYml]
    (formatTimestamp sampleNow) (discoverSidecars [sampleYml])
    (by
      intro q hq
      rw [List.mem_singleton.mp hq]
      rfl)
  have hp : package_investigations unitHash sampleProj none sampleNow =
      .ok ({ name := packageName sampleProj, resources := rw0.1 }, rw0.2) := by
    simp only [package_investigations, sampleProj, packageCore, filterTarget]
    rw [hba]
  exact ⟨_, _, hp, (C8_shared_timestamp unitHash _ none _ _ _ hp).1⟩

/-- A package run with every `created` blanked, written through the
blanked core run. -/
theorem runShape_package {σ : Type} (H : HashM σ) (proj : PkgProject)
    (L : List Entry) (target : Option (List Char)) (now : DateTime)
    (hD : proj.dataDir = some L) :
    runShape (package_investigations H proj target now) =
      match Except.map (fun rw => (rw.1.map stripCreated, rw.2))
          (packageCore H L target now) with
      | .error err => .error err
      | .ok s => .ok ({ name := packageName proj, resources := s.1 }, s.2) := by
  simp only [package_investigations, hD]
  cases hc : packageCore H L target now with
  | error e => rfl
  | ok rw => rfl

/-- The blanked core run does not depend on the clock value. -/
theorem packageCore_strip {σ : Type} (H : HashM σ) (L : List Entry)
    (target : Option (List Char)) (t1 t2 : DateTime) :
    Except.map (fun rw => (rw.1.map stripCreated, rw.2))
        (packageCore H L target t1) =
      Except.map (fun rw => (rw.1.map stripCreated, rw.2))
        (packageCore H L target t2) := by
  simp only [packageCore]
  cases hfil : filterTarget (discoverSidecars L) target with
  | error err => rfl
  | ok invs => exact buildAll_strip H L _ _ invs

/-! ## Claim C9 -/

/-- Claim C9: two package runs over byte-identical snapshots differ at
most in the `created` timestamps: with every `created` field blanked the
outcomes coincide, whatever the two clock values were; and the recorded
size is the byte length of the tidy file (the digest being the abstract
stream hash of its chunked content). -/
theorem C9_determinism {σ : Type} (H : HashM σ) (proj : PkgProject)
    (target : Option (List Char)) (t1 t2 : DateTime) :
    runShape (package_investigations H proj target t1) =
      runShape (package_investigations H proj target t2) ∧
    ∀ bytes : List Nat, (compute_file_info H bytes).1 = bytes.length := by
  refine ⟨?_, fun _ => rfl⟩
  cases hD : proj.dataDir with
  | none => simp only [package_investigations, hD]
  | some L =>
    rw [runShape_package H proj L target t1 hD,
      runShape_package H proj L target t2 hD,
      packageCore_strip H L target t1 t2]

/-! ## Claim C10 -/

/-- Claim C10: package-mode discovery is sidecar-driven: every data-folder
entry whose name ends in `.yml` is discovered under its stem, and every
discovered investigation is packaged into a resource whose name and path
use that stem — with no raw or source companion required — even for a
stem like `my-data` that check-mode classification rejects as unmatched. -/
theorem C10_sidecar_driven {σ : Type} (H : HashM σ) (proj : PkgProject)
    (L : List Entry) (now : DateTime) (hD : proj.dataDir = some L)
    (hok : ∀ q ∈ discoverSidecars L,
      (load_yaml_fields q.2.name (sideSrc q.2)).isOk = true) :
    (∀ e ∈ L, ".yml".toList.isSuffixOf e.name = true →
      ∃ e', (splitextStem e.name, e') ∈ discoverSidecars L) ∧
    (∀ inv e, (inv, e) ∈ discoverSidecars L →
      ∃ pkg w, package_investigations H proj none now = .ok (pkg, w) ∧
        ∃ r ∈ pkg.resources, r.name = inv.asString ∧
          r.path = "data/" ++ inv.asString ++ ".tsv") ∧
    classify ("my-data.yml".toList) = none ∧
    splitextStem ("my-data.yml".toList) = "my-data".toList := by
  refine ⟨?_, ?_, by decide, by decide⟩
  · intro e he hsuf
    exact discover_mem L [] e he hsuf
  · intro inv e hmem
    obtain ⟨rw0, hba, hall⟩ :=
      buildAll_total H L (formatTimestamp now) (discoverSidecars L) hok
    obtain ⟨r, w', hb, hr, _⟩ := hall (inv, e) hmem
    obtain ⟨_, hname, hpath, _⟩ := buildResource_props H L _ inv e r w' hb
    refine ⟨{ name := packageName proj, resources := rw0.1 }, rw0.2, ?_,
      r, hr, hname, hpath⟩
    simp only [package_investigations, hD, packageCore, filterTarget]
    rw [hba]

/-- Claim C10, applied to a lone sidecar `my-data.yml` whose stem
check-mode would reject. -/
theorem C10_sidecar_driven_witness :
    ∃ pkg w,
      package_investigations unitHash sampleProj2 none sampleNow =
        .ok (pkg, w) ∧
      ∃ r ∈ pkg.resources, r.name = ("my-data".toList).asString ∧
        r.path = "data/" ++ ("my-data".toList).asString ++ ".tsv" := by
  refine (C10_sidecar_driven unitHash sampleProj2 [sampleMyData] sampleNow
    rfl ?_).2.1 ("my-data".toList) sampleMyData ?_
  · intro q hq
    rw [List.mem_singleton.mp hq]
    rfl
  · exact List.mem_singleton.mpr rfl

/-! ## Claim C4 -/

/-- Claim C4 (counterexample): a tidy file `x.tsv` with bytes
`61 20 62 0A FF` — first line `"a b\n"`, tab-free — yields no
"not tab-separated" error at all: the chunked reader decodes the whole
8192-byte chunk before returning the first line, so the invalid byte
after the first line surfaces as a `UnicodeDecodeError` and the check
emits the "not encoded in UTF-8" error instead, refuting independence
from content after the first line. -/
theorem C4_counterexample :
    check_project_structure true sampleBadTidy none =
      [utf8Err ("x.tsv".toList)] ∧
    (9 : Nat) ∉ fileFirstLine [97, 32, 98, 10, 255] ∧
    tabErr ("x.tsv".toList) ∉
      check_project_structure true sampleBadTidy none := by
  decide

/-- Claim C4 (amended): when the tidy file's bytes are the UTF-8
encoding of valid scalar content, the content check emits exactly the
"not tab-separated" error precisely when the decoded first line has no
tab; and the first line — hence the outcome — depends only on the
content up to the first line end. -/
theorem C4_amended (f : List Char) (cs : List Nat)
    (hsc : ∀ c ∈ cs, scalarOK c = true) :
    tidyFileErrs f (utf8Encode cs) =
      (if (9 : Nat) ∈ fileFirstLine cs then [] else [tabErr f]) ∧
    ∀ (pre rest l : List Nat), cs = pre ++ rest →
      upToNL (translate pre) = some l →
      ¬(pre.getLast? = some 13 ∧ rest.head? = some 10) →
      fileFirstLine cs = fileFirstLine pre := by
  constructor
  · have h := readFirstLine_encode cs hsc
    simp only [tidyFileErrs, h]
  · intro pre rest l hcs hup hnc
    subst hcs
    unfold fileFirstLine
    rw [translate_append pre rest hnc, upToNL_append_some _ _ l hup, hup]
    rfl

/-- Claim C4 (amended), applied to the file `x.tsv` with content
`"ab\nc"`: the first line `"ab\n"` has no tab, so exactly the
"not tab-separated" error is emitted, and the first line is already
determined by the content up to the newline. -/
theorem C4_amended_witness :
    (∀ c ∈ [97, 98, 10, 99], scalarOK c = true) ∧
    (tidyFileErrs ("x.tsv".toList) (utf8Encode [97, 98, 10, 99]) =
      (if (9 : Nat) ∈ fileFirstLine [97, 98, 10, 99] then []
        else [tabErr ("x.tsv".toList)]) ∧
    ∀ (pre rest l : List Nat), [97, 98, 10, 99] = pre ++ rest →
      upToNL (translate pre) = some l →
      ¬(pre.getLast? = some 13 ∧ rest.head? = some 10) →
      fileFirstLine [97, 98, 10, 99] = fileFirstLine pre) :=
  ⟨by decide, C4_amended ("x.tsv".toList) [97, 98, 10, 99] (by decide)⟩

end DefaultData
